import Mathlib

/-!
# Global sequence alignment (`template.cpp`): embedding and verification

The program computes a Needleman-Wunsch style alignment score with a
recursive, memoized function `opt` over a dense table `Matrix<int>`, and
reconstructs one alignment with `traceback`.

Conventions of the embedding

* `std::string` is `List Char`; `s[i]` is defined for `i <= s.size()` (the
  position `s.size()` holds the terminating NUL), see `strAt`.
* `int` values are `Int`.  The additions the program performs are taken as a
  parameter `add`, so that the same definitions serve exact arithmetic
  (`opt`, `traceback`) and 32-bit wrapping arithmetic (`add32`).
* `size_t` values are `Nat`; the only decrement that is not guarded by a test
  against zero wraps explicitly (`sizeDec`).
* The order in which C++ evaluates the three arguments of `max3` (each of
  them calls `opt`, which writes to the table) is unspecified; it is the
  parameter `ord`, and every statement holds for all six orders.
* `Matrix<int>` comes from `matrix.h`; it is modelled as a bounds-checked dense
  table.  Failing accesses (and `std::string::insert` out of range) are `none`.
* Recursion and the `while` loop are driven by a fuel argument on which the
  definitions are structurally recursive; the top-level functions supply a
  budget that is shown to be sufficient.
* One iteration of the loop of `traceback` is also given on its own
  (`tracebackStep`, `tracebackIter`) and shown to make up the loop
  (`tracebackLoop_succ`, `tracebackLoop_eq_iter`).
* Of `main` only the preparation of the table is modelled (`mainMemo`);
  argument parsing and printing are left out.
-/

set_option autoImplicit false

namespace Align

/-! ## Data model -/

/-- Modelled from the spec: the class `Matrix<int>` of `matrix.h`, a dense
two-dimensional container of integer scores addressed by `(row, column)`;
an access outside `[0, rows) x [0, cols)` is an error. -/
structure Matrix where
  rows : Nat
  cols : Nat
  data : Nat → Nat → Int

/-- Modelled from the spec: the read access `memo.at(r, c)`; out of bounds is
an error. -/
def Matrix.at_ (m : Matrix) (r c : Nat) : Option Int :=
  if r < m.rows ∧ c < m.cols then some (m.data r c) else none

/-- Modelled from the spec: the write access `memo.at(r, c) = v`; out of
bounds is an error. -/
def Matrix.set (m : Matrix) (r c : Nat) (v : Int) : Option Matrix :=
  if r < m.rows ∧ c < m.cols then
    some { m with data := fun r' c' => if r' = r ∧ c' = c then v else m.data r' c' }
  else none

/-- The sentinel `const int INF {INT_MAX}` marking a cell as not yet
determined. -/
def INF : Int := 2147483647

/-- The largest `size_t` value (64-bit). -/
def SIZE_MAX : Nat := 2 ^ 64 - 1

/-- The decrement `i--` of a `size_t`: below zero it wraps around. -/
def sizeDec (i : Nat) : Nat := if i = 0 then SIZE_MAX else i - 1

/-- The access `s[i]` of a `std::string`: defined for `i <= s.size()`, where
position `s.size()` is the terminating NUL character. -/
def strAt (s : List Char) (i : Nat) : Option Char :=
  (s ++ [Char.ofNat 0])[i]?

/-- The call `s.insert(pos, "_")` for one character `c`: fails when
`pos > s.size()`. -/
def strInsert (s : List Char) (pos : Nat) (c : Char) : Option (List Char) :=
  if pos ≤ s.length then some (s.take pos ++ c :: s.drop pos) else none

/-- Exact integer addition (no overflow). -/
def addZ (x y : Int) : Int := x + y

/-- Two's complement 32-bit addition: the sum reduced into
`[-2^31, 2^31)`. -/
def add32 (x y : Int) : Int := (x + y + 2 ^ 31) % 2 ^ 32 - 2 ^ 31

/-! ## The program -/

/-- The function `max3`. -/
def max3 (a b c : Int) : Int :=
  let result := if a > b then a else b
  if result > c then result else c

/-- The order in which the three arguments of the call of `max3` in `opt`
are evaluated.  C++ leaves it unspecified; each argument contains a call of
`opt` that may write to the table.  `o123` is left to right, `o321` right to
left. -/
inductive ArgOrder where
  | o123 | o132 | o213 | o231 | o312 | o321
  deriving DecidableEq, Repr

/-- Evaluation of three table-modifying computations in the order `ord`; the
three values are returned in argument position. -/
def evalArgs (ord : ArgOrder) (f1 f2 f3 : Matrix → Option (Int × Matrix)) (m : Matrix) :
    Option (Int × Int × Int × Matrix) :=
  match ord with
  | .o123 => do
    let (v1, m) ← f1 m; let (v2, m) ← f2 m; let (v3, m) ← f3 m; pure (v1, v2, v3, m)
  | .o132 => do
    let (v1, m) ← f1 m; let (v3, m) ← f3 m; let (v2, m) ← f2 m; pure (v1, v2, v3, m)
  | .o213 => do
    let (v2, m) ← f2 m; let (v1, m) ← f1 m; let (v3, m) ← f3 m; pure (v1, v2, v3, m)
  | .o231 => do
    let (v2, m) ← f2 m; let (v3, m) ← f3 m; let (v1, m) ← f1 m; pure (v1, v2, v3, m)
  | .o312 => do
    let (v3, m) ← f3 m; let (v1, m) ← f1 m; let (v2, m) ← f2 m; pure (v1, v2, v3, m)
  | .o321 => do
    let (v3, m) ← f3 m; let (v2, m) ← f2 m; let (v1, m) ← f1 m; pure (v1, v2, v3, m)

/-- The function `opt`, with the addition `add`, the evaluation order `ord`
of the arguments of `max3`, and a recursion budget. -/
def optFuel (add : Int → Int → Int) (ord : ArgOrder) (s t : List Char)
    (match_ mismatch gap : Int) : Nat → Nat → Nat → Matrix → Option (Int × Matrix)
  | 0, _, _, _ => none
  | fuel + 1, i, j, memo => do
    let cur ← memo.at_ i j
    let memo' ←
      if cur = INF then
        if i = 0 ∧ j = 0 then
          memo.set 0 0 0
        else if i = 0 then do
          let (v, m1) ← optFuel add ord s t match_ mismatch gap fuel i (j - 1) memo
          m1.set 0 j (add v gap)
        else if j = 0 then do
          let (v, m1) ← optFuel add ord s t match_ mismatch gap fuel (i - 1) j memo
          m1.set i 0 (add v gap)
        else do
          let si ← strAt s i
          let tj ← strAt t j
          if si = tj then do
            let (v1, v2, v3, m3) ← evalArgs ord
              (optFuel add ord s t match_ mismatch gap fuel (i - 1) j)
              (optFuel add ord s t match_ mismatch gap fuel i (j - 1))
              (optFuel add ord s t match_ mismatch gap fuel (i - 1) (j - 1)) memo
            m3.set i j (max3 (add v1 gap) (add v2 gap) (add v3 match_))
          else if si ≠ tj then do
            let (v1, v2, v3, m3) ← evalArgs ord
              (optFuel add ord s t match_ mismatch gap fuel (i - 1) j)
              (optFuel add ord s t match_ mismatch gap fuel i (j - 1))
              (optFuel add ord s t match_ mismatch gap fuel (i - 1) (j - 1)) memo
            m3.set i j (max3 (add v1 gap) (add v2 gap) (add v3 mismatch))
          else pure memo
      else pure memo
    let r ← memo'.at_ i j
    pure (r, memo')

/-- The function `opt` with the addition `add` and the evaluation order
`ord`: every recursive call lowers `i + j`, so the budget `i + j + 1` is never
exhausted. -/
def optWith (add : Int → Int → Int) (ord : ArgOrder) (s : List Char) (i : Nat)
    (t : List Char) (j : Nat) (memo : Matrix) (match_ mismatch gap : Int) :
    Option (Int × Matrix) :=
  optFuel add ord s t match_ mismatch gap (i + j + 1) i j memo

/-- The function `opt` under exact integer arithmetic (no overflow). -/
def opt (ord : ArgOrder) (s : List Char) (i : Nat) (t : List Char) (j : Nat) (memo : Matrix)
    (match_ mismatch gap : Int) : Option (Int × Matrix) :=
  optWith addZ ord s i t j memo match_ mismatch gap

/-- The function `opt` under 32-bit wrapping arithmetic. -/
def opt32 (ord : ArgOrder) (s : List Char) (i : Nat) (t : List Char) (j : Nat)
    (memo : Matrix) (match_ mismatch gap : Int) : Option (Int × Matrix) :=
  optWith add32 ord s i t j memo match_ mismatch gap

/-- The `while` loop of `traceback`, with the addition `add` and an iteration
budget. -/
def tracebackLoop (add : Int → Int → Int) (memo : Matrix) (gap : Int) :
    Nat → List Char → List Char → Nat → Nat → Option (List Char × List Char)
  | fuel, sf, tf, i, j =>
    if i = 0 ∧ j = 0 then some (sf, tf)
    else
      match fuel with
      | 0 => none
      | fuel + 1 => do
        let c1 ←
          if i ≠ 0 then do
            let up ← memo.at_ (i - 1) j
            let cur ← memo.at_ i j
            pure (decide (add up gap = cur))
          else pure false
        if c1 then do
          let tf' ← strInsert tf (j + 1) '_'
          tracebackLoop add memo gap fuel sf tf' (i - 1) j
        else do
          let c2 ←
            if j ≠ 0 then do
              let left ← memo.at_ i (j - 1)
              let cur ← memo.at_ i j
              pure (decide (add left gap = cur))
            else pure false
          if c2 then do
            let sf' ← strInsert sf (i + 1) '_'
            tracebackLoop add memo gap fuel sf' tf i (j - 1)
          else
            tracebackLoop add memo gap fuel sf tf (sizeDec i) (sizeDec j)

/-- The function `traceback` with the addition `add`; the result is the pair
`(sf, tf)` that the program prints.  The loop is given `s.length + t.length`
iterations. -/
def tracebackWith (add : Int → Int → Int) (memo : Matrix) (s t : List Char) (gap : Int) :
    Option (List Char × List Char) :=
  tracebackLoop add memo gap (s.length + t.length) s t
    (sizeDec s.length) (sizeDec t.length)

/-- The function `traceback` under exact integer arithmetic (no overflow). -/
def traceback (memo : Matrix) (s t : List Char) (gap : Int) :
    Option (List Char × List Char) :=
  tracebackWith addZ memo s t gap

/-- The function `traceback` under 32-bit wrapping arithmetic. -/
def traceback32 (memo : Matrix) (s t : List Char) (gap : Int) :
    Option (List Char × List Char) :=
  tracebackWith add32 memo s t gap

/-- The padding done by `main` (`s = ' ' + s`): a placeholder character at
index 0, so that the characters of the sequence sit at indices `1..n`. -/
def pad (s : List Char) : List Char := ' ' :: s

/-- A table of the given size whose cells all hold `v`. -/
def Matrix.fill (rows cols : Nat) (v : Int) : Matrix :=
  { rows := rows, cols := cols, data := fun _ _ => v }

/-- The three branches of the loop body of `traceback`: the cell above
(`up`), the cell to the left (`left`), or the final `else` (`diag`). -/
inductive Branch where
  | up | left | diag
  deriving DecidableEq, Repr

/-- One iteration of the `while` loop of `traceback` from the state
`(sf, tf, i, j)`: the branch taken and the next state. -/
def tracebackStep (add : Int → Int → Int) (memo : Matrix) (gap : Int)
    (sf tf : List Char) (i j : Nat) : Option (Branch × List Char × List Char × Nat × Nat) := do
  let c1 ←
    if i ≠ 0 then do
      let up ← memo.at_ (i - 1) j
      let cur ← memo.at_ i j
      pure (decide (add up gap = cur))
    else pure false
  if c1 then do
    let tf' ← strInsert tf (j + 1) '_'
    pure (Branch.up, sf, tf', i - 1, j)
  else do
    let c2 ←
      if j ≠ 0 then do
        let left ← memo.at_ i (j - 1)
        let cur ← memo.at_ i j
        pure (decide (add left gap = cur))
      else pure false
    if c2 then do
      let sf' ← strInsert sf (i + 1) '_'
      pure (Branch.left, sf', tf, i, j - 1)
    else
      pure (Branch.diag, sf, tf, sizeDec i, sizeDec j)

/-- The state of the `while` loop of `traceback` after at most `k`
iterations (fewer when the origin is reached before). -/
def tracebackIter (add : Int → Int → Int) (memo : Matrix) (gap : Int) :
    Nat → List Char × List Char × Nat × Nat → Option (List Char × List Char × Nat × Nat)
  | 0, st => some st
  | k + 1, (sf, tf, i, j) =>
    if i = 0 ∧ j = 0 then some (sf, tf, i, j)
    else (tracebackStep add memo gap sf tf i j).bind fun r => tracebackIter add memo gap k r.2

/-- Modelled from the spec: the constructor `Matrix<int> memo(rows, cols)` of
`matrix.h`; the initial contents `init` of the cells are not specified. -/
def Matrix.new (rows cols : Nat) (init : Nat → Nat → Int) : Matrix :=
  { rows := rows, cols := cols, data := init }

/-- The inner loop of `main`: `memo.at(row, col) = INF` for
`col = 0 .. tsize`. -/
def fillRow (memo : Matrix) (row tsize : Nat) : Option Matrix :=
  (List.range (tsize + 1)).foldlM (fun m col => m.set row col INF) memo

/-- The outer loop of `main`: the inner loop for `row = 0 .. ssize`. -/
def fillAll (memo : Matrix) (ssize tsize : Nat) : Option Matrix :=
  (List.range (ssize + 1)).foldlM (fun m row => fillRow m row tsize) memo

/-- The table that `main` prepares for the sequences `seq1`, `seq2` given on
the command line: both are padded first, then the table is constructed with
`s.size() + 1` rows and `t.size() + 1` columns and filled with `INF`. -/
def mainMemo (init : Nat → Nat → Int) (seq1 seq2 : List Char) : Option Matrix :=
  let s := pad seq1
  let t := pad seq2
  fillAll (Matrix.new (s.length + 1) (t.length + 1) init) s.length t.length

/-! ## Specification-side definitions -/

/-- The reference recurrence for the score of the first `i` characters of `a`
against the first `j` characters of `b`: `R(0,0) = 0`,
`R(0,j) = R(0,j-1) + gap`, `R(i,0) = R(i-1,0) + gap`, and for `i, j > 0`
the maximum of `R(i-1,j) + gap`, `R(i,j-1) + gap` and `R(i-1,j-1)` plus
`match_` when the `i`-th character of `a` equals the `j`-th of `b`,
`mismatch` otherwise. -/
def R (a b : List Char) (match_ mismatch gap : Int) : Nat → Nat → Int
  | 0, 0 => 0
  | 0, j + 1 => R a b match_ mismatch gap 0 j + gap
  | i + 1, 0 => R a b match_ mismatch gap i 0 + gap
  | i + 1, j + 1 =>
    max (R a b match_ mismatch gap i (j + 1) + gap)
      (max (R a b match_ mismatch gap (i + 1) j + gap)
        (R a b match_ mismatch gap i j + (if a[i]? = b[j]? then match_ else mismatch)))

/-- Every cell of the table holds the unset sentinel. -/
def Matrix.Unset (m : Matrix) : Prop :=
  ∀ r, r < m.rows → ∀ c, c < m.cols → m.data r c = INF

/-- The table that the code computes, for an arbitrary addition `add`: the
same recurrence as `R`, written with `add` and `max3` as in `opt`.  It is used
to state table invariants that do not depend on the arithmetic. -/
def Rg (add : Int → Int → Int) (a b : List Char) (match_ mismatch gap : Int) :
    Nat → Nat → Int
  | 0, 0 => 0
  | 0, j + 1 => add (Rg add a b match_ mismatch gap 0 j) gap
  | i + 1, 0 => add (Rg add a b match_ mismatch gap i 0) gap
  | i + 1, j + 1 =>
    max3 (add (Rg add a b match_ mismatch gap i (j + 1)) gap)
      (add (Rg add a b match_ mismatch gap (i + 1) j) gap)
      (add (Rg add a b match_ mismatch gap i j) (if a[i]? = b[j]? then match_ else mismatch))

/-- All cells of the rectangle `[0,i] x [0,j]` hold the values of `V`. -/
def FullBelow (V : Nat → Nat → Int) (m : Matrix) (i j : Nat) : Prop :=
  ∀ r, r ≤ i → ∀ c, c ≤ j → m.data r c = V r c

/-- Table invariant of the memoization: below a resolved cell every cell
holds its value of `V`. -/
def Closed (V : Nat → Nat → Int) (m : Matrix) : Prop :=
  ∀ r, r < m.rows → ∀ c, c < m.cols → m.data r c ≠ INF → FullBelow V m r c

/-- Frame of a call of `opt` at `(i, j)`: the size of the table is kept and
a cell changes only inside `[0,i] x [0,j]`, and only to its value of `V`. -/
def Frame (V : Nat → Nat → Int) (m m' : Matrix) (i j : Nat) : Prop :=
  m'.rows = m.rows ∧ m'.cols = m.cols ∧
  ∀ r c, m'.data r c = m.data r c ∨ (r ≤ i ∧ c ≤ j ∧ m'.data r c = V r c)

/-- What one call of `opt` at `(i, j)` does to the table: the frame
condition, and afterwards the whole rectangle `[0,i] x [0,j]` is filled. -/
def OptPost (V : Nat → Nat → Int) (m m' : Matrix) (i j : Nat) : Prop :=
  Frame V m m' i j ∧ FullBelow V m' i j

/-- One column of a global alignment: two characters facing each other, a
character of the first sequence facing a gap, or a gap facing a character of
the second sequence. -/
inductive Col where
  | pair (x y : Char)
  | gapT (x : Char)
  | gapS (y : Char)
  deriving DecidableEq, Repr

/-- The score of one column: `match_` for two equal characters, `mismatch`
for two different ones, `gap` for a gap column. -/
def Col.score (match_ mismatch gap : Int) : Col → Int
  | .pair x y => if x = y then match_ else mismatch
  | .gapT _ => gap
  | .gapS _ => gap

/-- The score of an alignment: the sum of the scores of its columns. -/
def alScore (match_ mismatch gap : Int) (al : List Col) : Int :=
  (al.map (Col.score match_ mismatch gap)).sum

/-- The score of an alignment accumulated column by column with the addition
`add`, starting from 0. -/
def foldScore (add : Int → Int → Int) (match_ mismatch gap : Int) (al : List Col) : Int :=
  al.foldl (fun acc col => add acc (col.score match_ mismatch gap)) 0

/-- The characters of the first sequence in an alignment (gaps dropped). -/
def proj1 : List Col → List Char
  | [] => []
  | .pair x _ :: al => x :: proj1 al
  | .gapT x :: al => x :: proj1 al
  | .gapS _ :: al => proj1 al

/-- The characters of the second sequence in an alignment (gaps dropped). -/
def proj2 : List Col → List Char
  | [] => []
  | .pair _ y :: al => y :: proj2 al
  | .gapT _ :: al => proj2 al
  | .gapS y :: al => y :: proj2 al

/-- The first row of an alignment as printed, with `_` for a gap. -/
def render1 : List Col → List Char
  | [] => []
  | .pair x _ :: al => x :: render1 al
  | .gapT x :: al => x :: render1 al
  | .gapS _ :: al => '_' :: render1 al

/-- The second row of an alignment as printed, with `_` for a gap. -/
def render2 : List Col → List Char
  | [] => []
  | .pair _ y :: al => y :: render2 al
  | .gapT _ :: al => '_' :: render2 al
  | .gapS y :: al => y :: render2 al

/-- Re-scoring of one printed column: `gap` when either character is the gap
marker, `match_` when the two characters are equal, `mismatch` otherwise. -/
def colScore (match_ mismatch gap : Int) (x y : Char) : Int :=
  if x = '_' ∨ y = '_' then gap else if x = y then match_ else mismatch

/-- Re-scoring of a printed pair `(sf, tf)`, column by column from index 1 on
(index 0 is the placeholder column). -/
def rescore (match_ mismatch gap : Int) (sf tf : List Char) : Int :=
  (List.zipWith (colScore match_ mismatch gap) (sf.drop 1) (tf.drop 1)).sum

/-- The relation "`out` is `inp` with gap markers inserted": the characters
of `inp` appear in `out` in their order, and every other character of `out`
is an inserted `_`. -/
inductive Gapped : List Char → List Char → Prop
  | nil : Gapped [] []
  | keep (x : Char) {inp out : List Char} : Gapped inp out → Gapped (x :: inp) (x :: out)
  | gap {inp out : List Char} : Gapped inp out → Gapped inp ('_' :: out)

/-- The value `x` is representable as a 32-bit signed `int`. -/
def InRange32 (x : Int) : Prop := -2 ^ 31 ≤ x ∧ x < 2 ^ 31

/-- No addition `cell + gap / match / mismatch` that `opt` performs while
filling the rectangle `[0,n] x [0,m]` leaves the 32-bit signed range: the cell
`(i, j)` is added to `gap` for the cell below it (`i < n`) and for the cell to
its right (`j < m`), and to the substitution score for the cell
`(i+1, j+1)`. -/
def NoOverflow (a b : List Char) (match_ mismatch gap : Int) (n m : Nat) : Prop :=
  ∀ i, i ≤ n → ∀ j, j ≤ m →
    ((i < n ∨ j < m) → InRange32 (R a b match_ mismatch gap i j + gap)) ∧
    (i < n → j < m →
      InRange32 (R a b match_ mismatch gap i j + (if a[i]? = b[j]? then match_ else mismatch)))

/-- Write-once frame of a call of `opt` at `(i, j)`, for an arbitrary table:
the size of the table is kept, and a cell changes only if it lies inside the
table and inside `[0,i] x [0,j]` and held the unset sentinel before. -/
def WriteOnce (m m' : Matrix) (i j : Nat) : Prop :=
  m'.rows = m.rows ∧ m'.cols = m.cols ∧
  ∀ r c, m'.data r c = m.data r c ∨
    (r ≤ i ∧ c ≤ j ∧ r < m.rows ∧ c < m.cols ∧ m.data r c = INF)

/-- Two tables have the same size and the same cells in `[0,i] x [0,j]`. -/
def AgreeOn (i j : Nat) (m1 m2 : Matrix) : Prop :=
  m1.rows = m2.rows ∧ m1.cols = m2.cols ∧
  ∀ r, r ≤ i → ∀ c, c ≤ j → m1.data r c = m2.data r c

/-! ## Basic facts -/

section basics

variable (a b : List Char) (match_ mismatch gap : Int)

theorem R_zero_zero : R a b match_ mismatch gap 0 0 = 0 := by
  rw [R]

theorem R_zero_succ (j : Nat) :
    R a b match_ mismatch gap 0 (j + 1) = R a b match_ mismatch gap 0 j + gap := by
  rw [R]

theorem R_succ_zero (i : Nat) :
    R a b match_ mismatch gap (i + 1) 0 = R a b match_ mismatch gap i 0 + gap := by
  rw [R]

theorem R_succ_succ (i j : Nat) :
    R a b match_ mismatch gap (i + 1) (j + 1) =
      max (R a b match_ mismatch gap i (j + 1) + gap)
        (max (R a b match_ mismatch gap (i + 1) j + gap)
          (R a b match_ mismatch gap i j +
            (if a[i]? = b[j]? then match_ else mismatch))) := by
  rw [R]

theorem Rg_zero_zero (add : Int → Int → Int) : Rg add a b match_ mismatch gap 0 0 = 0 := by
  rw [Rg]

theorem Rg_zero_succ (add : Int → Int → Int) (j : Nat) :
    Rg add a b match_ mismatch gap 0 (j + 1) = add (Rg add a b match_ mismatch gap 0 j) gap := by
  rw [Rg]

theorem Rg_succ_zero (add : Int → Int → Int) (i : Nat) :
    Rg add a b match_ mismatch gap (i + 1) 0 = add (Rg add a b match_ mismatch gap i 0) gap := by
  rw [Rg]

theorem Rg_succ_succ (add : Int → Int → Int) (i j : Nat) :
    Rg add a b match_ mismatch gap (i + 1) (j + 1) =
      max3 (add (Rg add a b match_ mismatch gap i (j + 1)) gap)
        (add (Rg add a b match_ mismatch gap (i + 1) j) gap)
        (add (Rg add a b match_ mismatch gap i j)
          (if a[i]? = b[j]? then match_ else mismatch)) := by
  rw [Rg]

theorem max3_eq_max (x y z : Int) : max3 x y z = max x (max y z) := by
  unfold max3
  simp only [gt_iff_lt]
  split_ifs <;> omega

/-- Under exact addition the table of the code is the reference
recurrence. -/
theorem Rg_addZ : ∀ (i j : Nat),
    Rg addZ a b match_ mismatch gap i j = R a b match_ mismatch gap i j := by
  intro i
  induction i with
  | zero =>
    intro j
    induction j with
    | zero => rw [Rg_zero_zero, R_zero_zero]
    | succ j ih => rw [Rg_zero_succ, R_zero_succ, ih]; rfl
  | succ i ihi =>
    intro j
    induction j with
    | zero => rw [Rg_succ_zero, R_succ_zero, ihi 0]; rfl
    | succ j ihj =>
      rw [Rg_succ_succ, R_succ_succ, ihi (j + 1), ihj, ihi j, max3_eq_max]; rfl

theorem Rg_addZ_fun :
    Rg addZ a b match_ mismatch gap = R a b match_ mismatch gap :=
  funext fun i => funext fun j => Rg_addZ a b match_ mismatch gap i j

theorem max3_choice (x y z : Int) : max3 x y z = x ∨ max3 x y z = y ∨ max3 x y z = z := by
  unfold max3
  simp only [gt_iff_lt]
  split_ifs <;> simp

theorem Matrix.at_of_lt (m : Matrix) {r c : Nat} (hr : r < m.rows) (hc : c < m.cols) :
    m.at_ r c = some (m.data r c) := by
  simp [Matrix.at_, hr, hc]

theorem Matrix.set_of_lt (m : Matrix) {r c : Nat} (v : Int) (hr : r < m.rows)
    (hc : c < m.cols) :
    m.set r c v =
      some { m with data := fun r' c' => if r' = r ∧ c' = c then v else m.data r' c' } := by
  simp [Matrix.set, hr, hc]

theorem strAt_cons_succ (c : Char) (a : List Char) {i : Nat} (hi : i < a.length) :
    strAt (c :: a) (i + 1) = some (a[i]) := by
  simp [strAt, List.getElem?_append_left hi, List.getElem?_eq_getElem hi]

end basics

section frames

variable (V : Nat → Nat → Int)

theorem closed_of_unset {m : Matrix} (h : m.Unset) : Closed V m := by
  intro r hr c hc hne
  exact absurd (h r hr c hc) hne

theorem frame_refl (m : Matrix) (i j : Nat) : Frame V m m i j :=
  ⟨rfl, rfl, fun _ _ => Or.inl rfl⟩

theorem frame_mono {m m' : Matrix} {p q i j : Nat}
    (h : Frame V m m' p q) (hp : p ≤ i) (hq : q ≤ j) :
    Frame V m m' i j := by
  refine ⟨h.1, h.2.1, fun r c => ?_⟩
  rcases h.2.2 r c with h' | ⟨h1, h2, h3⟩
  · exact Or.inl h'
  · exact Or.inr ⟨le_trans h1 hp, le_trans h2 hq, h3⟩

theorem frame_trans {m m1 m2 : Matrix} {i j : Nat}
    (h1 : Frame V m m1 i j)
    (h2 : Frame V m1 m2 i j) :
    Frame V m m2 i j := by
  refine ⟨h2.1.trans h1.1, h2.2.1.trans h1.2.1, fun r c => ?_⟩
  rcases h2.2.2 r c with h | h
  · rcases h1.2.2 r c with h' | ⟨ha, hb, h'⟩
    · left; rw [h, h']
    · right; exact ⟨ha, hb, by rw [h, h']⟩
  · right; exact h

theorem fullBelow_of_frame {m m' : Matrix} {i j p q : Nat}
    (hf : FullBelow V m p q)
    (hp : Frame V m m' i j) :
    FullBelow V m' p q := by
  intro r hr c hc
  rcases hp.2.2 r c with h | ⟨_, _, h⟩
  · rw [h, hf r hr c hc]
  · exact h

theorem closed_of_post {m m' : Matrix} {i j : Nat} (hcl : Closed V m)
    (hp : OptPost V m m' i j) : Closed V m' := by
  obtain ⟨⟨hrows, hcols, hframe⟩, hfull⟩ := hp
  intro r hr c hc hne
  rcases hframe r c with h | ⟨h1, h2, _⟩
  · rw [h] at hne
    exact fullBelow_of_frame V
      (hcl r (hrows ▸ hr) c (hcols ▸ hc) hne) ⟨hrows, hcols, hframe⟩
  · intro r' hr' c' hc'
    exact hfull r' (le_trans hr' h1) c' (le_trans hc' h2)

/-- The three recursive calls of an inner cell `(i+1, j+1)`, in any
evaluation order: together they return the three values, keep the frame and
fill the rectangles `[0,i] x [0,j+1]` and `[0,i+1] x [0,j]`. -/
theorem evalArgs_spec (ord : ArgOrder) (f1 f2 f3 : Matrix → Option (Int × Matrix))
    (memo : Matrix) (i j : Nat) (v1 v2 v3 : Int)
    (h1 : ∀ m, Closed V m → m.rows = memo.rows → m.cols = memo.cols →
      ∃ m', f1 m = some (v1, m') ∧ OptPost V m m' i (j + 1))
    (h2 : ∀ m, Closed V m → m.rows = memo.rows → m.cols = memo.cols →
      ∃ m', f2 m = some (v2, m') ∧ OptPost V m m' (i + 1) j)
    (h3 : ∀ m, Closed V m → m.rows = memo.rows → m.cols = memo.cols →
      ∃ m', f3 m = some (v3, m') ∧ OptPost V m m' i j)
    (hcl : Closed V memo) :
    ∃ m3, evalArgs ord f1 f2 f3 memo = some (v1, v2, v3, m3) ∧
      Frame V memo m3 (i + 1) (j + 1) ∧ FullBelow V m3 i (j + 1) ∧
      FullBelow V m3 (i + 1) j := by
  have step : ∀ (f : Matrix → Option (Int × Matrix)) (v : Int) (p q : Nat),
      (∀ m, Closed V m → m.rows = memo.rows → m.cols = memo.cols →
        ∃ m', f m = some (v, m') ∧ OptPost V m m' p q) →
      p ≤ i + 1 → q ≤ j + 1 → ∀ m, Closed V m → Frame V memo m (i + 1) (j + 1) →
      ∃ m', f m = some (v, m') ∧ Closed V m' ∧ Frame V memo m' (i + 1) (j + 1) ∧
        Frame V m m' (i + 1) (j + 1) ∧ FullBelow V m' p q := by
    intro f v p q hf hp hq m hm hfr
    obtain ⟨m', e, hpost⟩ := hf m hm hfr.1 hfr.2.1
    have hfr' := frame_mono V hpost.1 hp hq
    exact ⟨m', e, closed_of_post V hm hpost, frame_trans V hfr hfr', hfr', hpost.2⟩
  have s1 := step f1 v1 i (j + 1) h1 (Nat.le_succ i) le_rfl
  have s2 := step f2 v2 (i + 1) j h2 le_rfl (Nat.le_succ j)
  have s3 := step f3 v3 i j h3 (Nat.le_succ i) (Nat.le_succ j)
  have h0 := frame_refl V memo (i + 1) (j + 1)
  cases ord
  · obtain ⟨ma, ea, ca, fa, _, ua⟩ := s1 memo hcl h0
    obtain ⟨mb, eb, cb, fb, gb, ub⟩ := s2 ma ca fa
    obtain ⟨mc, ec, _, fc, gc, _⟩ := s3 mb cb fb
    exact ⟨mc, by simp [evalArgs, ea, eb, ec], fc,
      fullBelow_of_frame V (fullBelow_of_frame V ua gb) gc, fullBelow_of_frame V ub gc⟩
  · obtain ⟨ma, ea, ca, fa, _, ua⟩ := s1 memo hcl h0
    obtain ⟨mb, eb, cb, fb, gb, _⟩ := s3 ma ca fa
    obtain ⟨mc, ec, _, fc, gc, uc⟩ := s2 mb cb fb
    exact ⟨mc, by simp [evalArgs, ea, eb, ec], fc,
      fullBelow_of_frame V (fullBelow_of_frame V ua gb) gc, uc⟩
  · obtain ⟨ma, ea, ca, fa, _, ua⟩ := s2 memo hcl h0
    obtain ⟨mb, eb, cb, fb, gb, ub⟩ := s1 ma ca fa
    obtain ⟨mc, ec, _, fc, gc, _⟩ := s3 mb cb fb
    exact ⟨mc, by simp [evalArgs, ea, eb, ec], fc,
      fullBelow_of_frame V ub gc, fullBelow_of_frame V (fullBelow_of_frame V ua gb) gc⟩
  · obtain ⟨ma, ea, ca, fa, _, ua⟩ := s2 memo hcl h0
    obtain ⟨mb, eb, cb, fb, gb, _⟩ := s3 ma ca fa
    obtain ⟨mc, ec, _, fc, gc, uc⟩ := s1 mb cb fb
    exact ⟨mc, by simp [evalArgs, ea, eb, ec], fc,
      uc, fullBelow_of_frame V (fullBelow_of_frame V ua gb) gc⟩
  · obtain ⟨ma, ea, ca, fa, _, _⟩ := s3 memo hcl h0
    obtain ⟨mb, eb, cb, fb, _, ub⟩ := s1 ma ca fa
    obtain ⟨mc, ec, _, fc, gc, uc⟩ := s2 mb cb fb
    exact ⟨mc, by simp [evalArgs, ea, eb, ec], fc, fullBelow_of_frame V ub gc, uc⟩
  · obtain ⟨ma, ea, ca, fa, _, _⟩ := s3 memo hcl h0
    obtain ⟨mb, eb, cb, fb, _, ub⟩ := s2 ma ca fa
    obtain ⟨mc, ec, _, fc, gc, uc⟩ := s1 mb cb fb
    exact ⟨mc, by simp [evalArgs, ea, eb, ec], fc, uc, fullBelow_of_frame V ub gc⟩

end frames

/-! ## Correctness of `opt` -/

section optCorrect

variable (V : Nat → Nat → Int) (add : Int → Int → Int) (ord : ArgOrder) (c d : Char)
  (a b : List Char) (match_ mismatch gap : Int)

/-- The recursion budget is only a device: any two budgets above `i + j`
give the same result, whatever the table holds. -/
theorem optFuel_budget (s t : List Char) : ∀ (fuel fuel' i j : Nat) (memo : Matrix),
    i + j < fuel → i + j < fuel' →
    optFuel add ord s t match_ mismatch gap fuel i j memo =
      optFuel add ord s t match_ mismatch gap fuel' i j memo := by
  intro fuel
  induction fuel with
  | zero => intro fuel' i j memo h; omega
  | succ fuel ih =>
    intro fuel' i j memo h h'
    obtain ⟨fuel', rfl⟩ : ∃ k, fuel' = k + 1 := ⟨fuel' - 1, by omega⟩
    rw [optFuel, optFuel]
    by_cases hi : i = 0
    · by_cases hj : j = 0
      · simp [hi, hj]
      · subst hi
        simp only [hj, and_false, if_false, if_true]
        rw [ih fuel' 0 (j - 1) memo (by omega) (by omega)]
    · by_cases hj : j = 0
      · subst hj
        simp only [hi, false_and, if_false, if_true]
        rw [ih fuel' (i - 1) 0 memo (by omega) (by omega)]
      · have e1 : optFuel add ord s t match_ mismatch gap fuel (i - 1) j =
            optFuel add ord s t match_ mismatch gap fuel' (i - 1) j :=
          funext fun m => ih fuel' (i - 1) j m (by omega) (by omega)
        have e2 : optFuel add ord s t match_ mismatch gap fuel i (j - 1) =
            optFuel add ord s t match_ mismatch gap fuel' i (j - 1) :=
          funext fun m => ih fuel' i (j - 1) m (by omega) (by omega)
        have e3 : optFuel add ord s t match_ mismatch gap fuel (i - 1) (j - 1) =
            optFuel add ord s t match_ mismatch gap fuel' (i - 1) (j - 1) :=
          funext fun m => ih fuel' (i - 1) (j - 1) m (by omega) (by omega)
        rw [e1, e2, e3]

theorem post_set {m w : Matrix} {i j : Nat} {v : Int}
    (hi : i < m.rows) (hj : j < m.cols)
    (hv : v = V i j)
    (hframe : Frame V m w i j)
    (hfull : ∀ r, r ≤ i → ∀ c, c ≤ j → (r, c) ≠ (i, j) →
      w.data r c = V r c) :
    ∃ m', w.set i j v = some m' ∧ m'.at_ i j = some (V i j) ∧
      OptPost V m m' i j := by
  have hi3 : i < w.rows := hframe.1 ▸ hi
  have hj3 : j < w.cols := hframe.2.1 ▸ hj
  refine ⟨_, w.set_of_lt v hi3 hj3, ?_, ⟨hframe.1, hframe.2.1, ?_⟩, ?_⟩
  · simp [Matrix.at_, hi3, hj3, hv]
  · intro r c
    by_cases h : r = i ∧ c = j
    · right
      obtain ⟨rfl, rfl⟩ := h
      simp [hv]
    · simp only [h, if_false]
      exact hframe.2.2 r c
  · intro r hr c hc
    by_cases h : r = i ∧ c = j
    · obtain ⟨rfl, rfl⟩ := h
      simp [hv]
    · simp only [h, if_false]
      exact hfull r hr c hc (fun e => h ⟨congrArg Prod.fst e, congrArg Prod.snd e⟩)

theorem optFuel_spec : ∀ (fuel i j : Nat) (memo : Matrix), i + j < fuel →
    i ≤ a.length → j ≤ b.length → i < memo.rows → j < memo.cols →
    Closed (Rg add a b match_ mismatch gap) memo →
    ∃ memo', optFuel add ord (c :: a) (d :: b) match_ mismatch gap fuel i j memo
        = some (Rg add a b match_ mismatch gap i j, memo') ∧
      OptPost (Rg add a b match_ mismatch gap) memo memo' i j := by
  intro fuel
  induction fuel with
  | zero => intro i j memo h; omega
  | succ fuel ih =>
    intro i j memo hfuel hi hj hr hc hcl
    rw [optFuel]
    by_cases hcur : memo.data i j = INF
    · simp only [memo.at_of_lt hr hc, hcur, if_true, Option.bind_eq_bind, Option.some_bind,
        Option.pure_def]
      have finish : ∀ (m3 m' : Matrix) (v x : Int), m3.set i j v = some m' →
          m'.at_ i j = some x →
          ((m3.set i j v).bind fun y => (y.at_ i j).bind fun r => some (r, y)) = some (x, m') := by
        intro m3 m' v x h1 h2
        simp [h1, h2]
      rcases Nat.eq_zero_or_pos i with hi0 | hi0
      · rcases Nat.eq_zero_or_pos j with hj0 | hj0
        · subst hi0 hj0
          obtain ⟨m', hs, hat, hp⟩ := post_set _ (m := memo) (w := memo)
            (v := 0) hr hc (Rg_zero_zero a b match_ mismatch gap add).symm
            (frame_refl _ memo 0 0)
            (fun r hr' c hc' hne => absurd (by
              rw [Nat.le_zero.mp hr', Nat.le_zero.mp hc']) hne)
          exact ⟨m', by simp only [and_self, if_true]; exact finish _ _ _ _ hs hat, hp⟩
        · subst hi0
          obtain ⟨j, rfl⟩ : ∃ k, j = k + 1 := ⟨j - 1, by omega⟩
          obtain ⟨m1, h1, p1⟩ := ih 0 j memo (by omega) hi (by omega) hr (by omega) hcl
          obtain ⟨m', hs, hat, hp⟩ := post_set _ (m := memo) (w := m1)
            (i := 0) (j := j + 1)
            (v := add (Rg add a b match_ mismatch gap 0 j) gap) hr hc
            (by rw [Rg_zero_succ])
            (frame_mono _ p1.1 le_rfl (Nat.le_succ j))
            (fun r hr' c hc' hne => p1.2 r hr' c (by
              rcases Nat.lt_or_ge c (j + 1) with h | h
              · omega
              · exact absurd (by rw [Nat.le_zero.mp hr', Nat.le_antisymm hc' h]) hne))
          refine ⟨m', ?_, hp⟩
          simp only [Nat.succ_ne_zero, and_false, if_false, if_true, Nat.add_sub_cancel, h1,
            Option.some_bind]
          exact finish _ _ _ _ hs hat
      · obtain ⟨i, rfl⟩ : ∃ k, i = k + 1 := ⟨i - 1, by omega⟩
        rcases Nat.eq_zero_or_pos j with hj0 | hj0
        · subst hj0
          obtain ⟨m1, h1, p1⟩ := ih i 0 memo (by omega) (by omega) hj (by omega) hc hcl
          obtain ⟨m', hs, hat, hp⟩ := post_set _ (m := memo) (w := m1)
            (i := i + 1) (j := 0)
            (v := add (Rg add a b match_ mismatch gap i 0) gap) hr hc
            (by rw [Rg_succ_zero])
            (frame_mono _ p1.1 (Nat.le_succ i) le_rfl)
            (fun r hr' c hc' hne => p1.2 r (by
              rcases Nat.lt_or_ge r (i + 1) with h | h
              · omega
              · exact absurd (by rw [Nat.le_zero.mp hc', Nat.le_antisymm hr' h]) hne) c hc')
          refine ⟨m', ?_, hp⟩
          simp only [Nat.succ_ne_zero, false_and, if_false, if_true, Nat.add_sub_cancel, h1,
            Option.some_bind]
          exact finish _ _ _ _ hs hat
        · obtain ⟨j, rfl⟩ : ∃ k, j = k + 1 := ⟨j - 1, by omega⟩
          have hia : i < a.length := by omega
          have hjb : j < b.length := by omega
          obtain ⟨m3, h3, f13, full1, full2⟩ := evalArgs_spec
            (Rg add a b match_ mismatch gap) ord
            (optFuel add ord (c :: a) (d :: b) match_ mismatch gap fuel i (j + 1))
            (optFuel add ord (c :: a) (d :: b) match_ mismatch gap fuel (i + 1) j)
            (optFuel add ord (c :: a) (d :: b) match_ mismatch gap fuel i j) memo i j
            (Rg add a b match_ mismatch gap i (j + 1))
            (Rg add a b match_ mismatch gap (i + 1) j)
            (Rg add a b match_ mismatch gap i j)
            (fun m hm e1 e2 => ih i (j + 1) m (by omega) (by omega) hj (by omega) (by omega) hm)
            (fun m hm e1 e2 => ih (i + 1) j m (by omega) hi (by omega) (by omega) (by omega) hm)
            (fun m hm e1 e2 => ih i j m (by omega) (by omega) (by omega) (by omega) (by omega)
              hm)
            hcl
          have key : ∀ sub : Int,
              sub = (if a[i]? = b[j]? then match_ else mismatch) →
              ∃ m', m3.set (i + 1) (j + 1)
                  (max3 (add (Rg add a b match_ mismatch gap i (j + 1)) gap)
                    (add (Rg add a b match_ mismatch gap (i + 1) j) gap)
                    (add (Rg add a b match_ mismatch gap i j) sub)) = some m' ∧
                m'.at_ (i + 1) (j + 1) = some (Rg add a b match_ mismatch gap (i + 1) (j + 1)) ∧
                OptPost (Rg add a b match_ mismatch gap) memo m' (i + 1) (j + 1) := by
            intro sub hsub
            refine post_set _ hr hc ?_ f13 ?_
            · rw [Rg_succ_succ, hsub]
            · intro r hr' c hc' hne
              rcases Nat.lt_or_ge r (i + 1) with h | h
              · exact full1 r (by omega) c hc'
              · rcases Nat.lt_or_ge c (j + 1) with h' | h'
                · exact full2 r hr' c (by omega)
                · exact absurd (by rw [Nat.le_antisymm hr' h, Nat.le_antisymm hc' h']) hne
          simp only [Nat.succ_ne_zero, false_and, and_false, if_false, Nat.add_sub_cancel,
            strAt_cons_succ c a hia, strAt_cons_succ d b hjb, Option.some_bind, h3]
          have hopt : (a[i] = b[j]) ↔ (a[i]? = b[j]?) := by
            rw [List.getElem?_eq_getElem hia, List.getElem?_eq_getElem hjb]
            exact ⟨fun h => by rw [h], fun h => Option.some.inj h⟩
          by_cases hc' : a[i] = b[j]
          · obtain ⟨m', hs, hat, hp⟩ := key match_ (by rw [if_pos (hopt.mp hc')])
            refine ⟨m', ?_, hp⟩
            simp only [hc', if_true]
            exact finish _ _ _ _ hs hat
          · obtain ⟨m', hs, hat, hp⟩ :=
              key mismatch (by rw [if_neg (fun h => hc' (hopt.mpr h))])
            refine ⟨m', ?_, hp⟩
            simp only [hc', if_false, ne_eq, not_false_eq_true, if_true]
            exact finish _ _ _ _ hs hat
    · refine ⟨memo, ?_, frame_refl _ memo i j, hcl i hr j hc hcur⟩
      have hval := hcl i hr j hc hcur i le_rfl j le_rfl
      simp only [memo.at_of_lt hr hc, hcur, if_false, Option.bind_eq_bind, Option.some_bind,
        Option.pure_def]
      rw [hval]

theorem opt_spec (i j : Nat) (memo : Matrix)
    (hi : i ≤ a.length) (hj : j ≤ b.length) (hr : i < memo.rows) (hc : j < memo.cols)
    (hcl : Closed (Rg add a b match_ mismatch gap) memo) :
    ∃ memo', optWith add ord (c :: a) i (d :: b) j memo match_ mismatch gap
        = some (Rg add a b match_ mismatch gap i j, memo') ∧
      OptPost (Rg add a b match_ mismatch gap) memo memo' i j :=
  optFuel_spec add ord c d a b match_ mismatch gap (i + j + 1) i j memo (Nat.lt_succ_self _)
    hi hj hr hc hcl

end optCorrect

/-! ## Correctness of `traceback` -/

section tracebackCorrect

variable (add : Int → Int → Int) (ord : ArgOrder) (c d : Char) (a b : List Char)
  (match_ mismatch gap : Int)

theorem strInsert_append (pre post : List Char) (x : Char) :
    strInsert (pre ++ post) pre.length x = some (pre ++ x :: post) := by
  simp [strInsert]

theorem take_succ_of_lt (l : List Char) {i : Nat} (h : i < l.length) :
    l.take (i + 1) = l.take i ++ [l[i]] := by
  rw [List.take_succ, List.getElem?_eq_getElem h]
  rfl

theorem proj1_append (al al' : List Col) : proj1 (al ++ al') = proj1 al ++ proj1 al' := by
  induction al with
  | nil => rfl
  | cons x al ih => cases x <;> simp [proj1, ih]

theorem proj2_append (al al' : List Col) : proj2 (al ++ al') = proj2 al ++ proj2 al' := by
  induction al with
  | nil => rfl
  | cons x al ih => cases x <;> simp [proj2, ih]

theorem render1_append (al al' : List Col) :
    render1 (al ++ al') = render1 al ++ render1 al' := by
  induction al with
  | nil => rfl
  | cons x al ih => cases x <;> simp [render1, ih]

theorem render2_append (al al' : List Col) :
    render2 (al ++ al') = render2 al ++ render2 al' := by
  induction al with
  | nil => rfl
  | cons x al ih => cases x <;> simp [render2, ih]

theorem alScore_append (al al' : List Col) :
    alScore match_ mismatch gap (al ++ al') =
      alScore match_ mismatch gap al + alScore match_ mismatch gap al' := by
  simp [alScore]

theorem foldScore_concat (al : List Col) (x : Col) :
    foldScore add match_ mismatch gap (al ++ [x]) =
      add (foldScore add match_ mismatch gap al) (x.score match_ mismatch gap) := by
  simp [foldScore]

theorem foldScore_addZ (al : List Col) :
    foldScore addZ match_ mismatch gap al = alScore match_ mismatch gap al := by
  induction al using List.reverseRecOn with
  | nil => rfl
  | append_singleton al x ih =>
    rw [foldScore_concat, ih, alScore_append]
    simp [alScore, addZ]

theorem tracebackLoop_step (memo : Matrix)
    (hfull : FullBelow (Rg add a b match_ mismatch gap) memo a.length b.length)
    (hr : a.length < memo.rows) (hc : b.length < memo.cols)
    (fuel i j : Nat) (sf tf : List Char) (hi : i ≤ a.length) (hj : j ≤ b.length)
    (h00 : ¬(i = 0 ∧ j = 0)) :
    tracebackLoop add memo gap (fuel + 1) sf tf i j =
      if i ≠ 0 ∧ add (Rg add a b match_ mismatch gap (i - 1) j) gap =
          Rg add a b match_ mismatch gap i j then
        (strInsert tf (j + 1) '_').bind fun tf' =>
          tracebackLoop add memo gap fuel sf tf' (i - 1) j
      else if j ≠ 0 ∧
          add (Rg add a b match_ mismatch gap i (j - 1)) gap =
            Rg add a b match_ mismatch gap i j then
        (strInsert sf (i + 1) '_').bind fun sf' =>
          tracebackLoop add memo gap fuel sf' tf i (j - 1)
      else tracebackLoop add memo gap fuel sf tf (sizeDec i) (sizeDec j) := by
  have hat : ∀ r q, r ≤ a.length → q ≤ b.length →
      memo.at_ r q = some (Rg add a b match_ mismatch gap r q) := by
    intro r q hr' hq'
    rw [memo.at_of_lt (by omega) (by omega), hfull r hr' q hq']
  rw [tracebackLoop]
  simp only [h00, if_false, Option.bind_eq_bind, Option.pure_def]
  by_cases hi0 : i = 0 <;> by_cases hj0 : j = 0
  · exact absurd ⟨hi0, hj0⟩ h00
  · simp [hi0, hat 0 (j - 1) (Nat.zero_le _) (by omega), hat 0 j (Nat.zero_le _) hj, addZ, hj0]
  · simp [hj0, hat (i - 1) 0 (by omega) (Nat.zero_le _), hat i 0 hi (Nat.zero_le _), addZ, hi0]
  · simp only [ne_eq, hi0, hj0, not_false_eq_true, if_true, true_and,
      hat (i - 1) j (by omega) hj, hat i j hi hj, hat i (j - 1) hi (by omega),
      Option.some_bind, addZ, decide_eq_true_eq]

theorem tracebackLoop_spec (memo : Matrix)
    (hfull : FullBelow (Rg add a b match_ mismatch gap) memo a.length b.length)
    (hr : a.length < memo.rows) (hc : b.length < memo.cols) :
    ∀ (fuel i j : Nat) (tailS tailT : List Char), i ≤ a.length → j ≤ b.length →
      i + j ≤ fuel →
      ∃ al, proj1 al = a.take i ∧ proj2 al = b.take j ∧
        foldScore add match_ mismatch gap al = Rg add a b match_ mismatch gap i j ∧
        tracebackLoop add memo gap fuel (c :: a.take i ++ tailS) (d :: b.take j ++ tailT) i j
          = some (c :: render1 al ++ tailS, d :: render2 al ++ tailT) := by
  intro fuel
  induction fuel with
  | zero =>
    intro i j tailS tailT hi hj hfuel
    obtain ⟨rfl, rfl⟩ : i = 0 ∧ j = 0 := by omega
    exact ⟨[], rfl, rfl, by simp [foldScore, Rg_zero_zero],
      by simp [tracebackLoop, render1, render2]⟩
  | succ fuel ih =>
    intro i j tailS tailT hi hj hfuel
    by_cases h00 : i = 0 ∧ j = 0
    · obtain ⟨rfl, rfl⟩ := h00
      exact ⟨[], rfl, rfl, by simp [foldScore, Rg_zero_zero],
        by simp [tracebackLoop, render1, render2]⟩
    · rw [tracebackLoop_step add a b match_ mismatch gap memo hfull hr hc fuel i j _ _ hi hj h00]
      have hinsT : strInsert (d :: List.take j b ++ tailT) (j + 1) '_' =
          some (d :: List.take j b ++ '_' :: tailT) := by
        have := strInsert_append (d :: List.take j b) tailT '_'
        simpa [List.length_take, Nat.min_eq_left hj] using this
      have hinsS : strInsert (c :: List.take i a ++ tailS) (i + 1) '_' =
          some (c :: List.take i a ++ '_' :: tailS) := by
        have := strInsert_append (c :: List.take i a) tailS '_'
        simpa [List.length_take, Nat.min_eq_left hi] using this
      by_cases hup : i ≠ 0 ∧
          add (Rg add a b match_ mismatch gap (i - 1) j) gap = Rg add a b match_ mismatch gap i j
      · rw [if_pos hup, hinsT, Option.some_bind]
        obtain ⟨hi0, hval⟩ := hup
        obtain ⟨i, rfl⟩ : ∃ k, i = k + 1 := ⟨i - 1, by omega⟩
        simp only [Nat.add_sub_cancel] at hval ⊢
        obtain ⟨al, h1, h2, h3, h4⟩ := ih i j (a[i] :: tailS) ('_' :: tailT) (by omega) hj
          (by omega)
        refine ⟨al ++ [Col.gapT a[i]], ?_, ?_, ?_, ?_⟩
        · rw [proj1_append, h1, take_succ_of_lt a (by omega)]; rfl
        · rw [proj2_append, h2]; simp [proj2]
        · rw [foldScore_concat, h3, ← hval]; rfl
        · rw [take_succ_of_lt a (by omega)]
          simp only [List.append_assoc, List.singleton_append, List.cons_append,
            render1_append, render2_append, render1, render2] at h4 ⊢
          exact h4
      · rw [if_neg hup]
        by_cases hleft : j ≠ 0 ∧
            add (Rg add a b match_ mismatch gap i (j - 1)) gap = Rg add a b match_ mismatch gap i j
        · rw [if_pos hleft, hinsS, Option.some_bind]
          obtain ⟨hj0, hval⟩ := hleft
          obtain ⟨j, rfl⟩ : ∃ k, j = k + 1 := ⟨j - 1, by omega⟩
          simp only [Nat.add_sub_cancel] at hval ⊢
          obtain ⟨al, h1, h2, h3, h4⟩ := ih i j ('_' :: tailS) (b[j] :: tailT) hi (by omega)
            (by omega)
          refine ⟨al ++ [Col.gapS b[j]], ?_, ?_, ?_, ?_⟩
          · rw [proj1_append, h1]; simp [proj1]
          · rw [proj2_append, h2, take_succ_of_lt b (by omega)]; rfl
          · rw [foldScore_concat, h3, ← hval]; rfl
          · rw [take_succ_of_lt b (by omega)]
            simp only [List.append_assoc, List.singleton_append, List.cons_append,
              render1_append, render2_append, render1, render2] at h4 ⊢
            exact h4
        · rw [if_neg hleft]
          have hi0 : i ≠ 0 := by
            rintro rfl
            have hj0 : j ≠ 0 := fun h => h00 ⟨rfl, h⟩
            obtain ⟨j, rfl⟩ : ∃ k, j = k + 1 := ⟨j - 1, by omega⟩
            exact hleft ⟨hj0, by rw [Nat.add_sub_cancel, Rg_zero_succ]⟩
          have hj0 : j ≠ 0 := by
            rintro rfl
            obtain ⟨i, rfl⟩ : ∃ k, i = k + 1 := ⟨i - 1, by omega⟩
            exact hup ⟨hi0, by rw [Nat.add_sub_cancel, Rg_succ_zero]⟩
          obtain ⟨i, rfl⟩ : ∃ k, i = k + 1 := ⟨i - 1, by omega⟩
          obtain ⟨j, rfl⟩ : ∃ k, j = k + 1 := ⟨j - 1, by omega⟩
          have hia : i < a.length := by omega
          have hjb : j < b.length := by omega
          simp only [Nat.add_sub_cancel, ne_eq, Nat.succ_ne_zero, not_false_eq_true,
            true_and] at hup hleft
          have hval : add (Rg add a b match_ mismatch gap i j)
              (if a[i] = b[j] then match_ else mismatch) =
              Rg add a b match_ mismatch gap (i + 1) (j + 1) := by
            have hrec := Rg_succ_succ a b match_ mismatch gap add i j
            rw [List.getElem?_eq_getElem hia, List.getElem?_eq_getElem hjb] at hrec
            simp only [Option.some.injEq] at hrec
            rcases max3_choice (add (Rg add a b match_ mismatch gap i (j + 1)) gap)
              (add (Rg add a b match_ mismatch gap (i + 1) j) gap)
              (add (Rg add a b match_ mismatch gap i j)
                (if a[i] = b[j] then match_ else mismatch)) with h | h | h
            · rw [h] at hrec; exact absurd hrec.symm hup
            · rw [h] at hrec; exact absurd hrec.symm hleft
            · rw [hrec, h]
          have hdec : sizeDec (i + 1) = i ∧ sizeDec (j + 1) = j := by
            simp [sizeDec]
          rw [hdec.1, hdec.2]
          obtain ⟨al, h1, h2, h3, h4⟩ := ih i j (a[i] :: tailS) (b[j] :: tailT) (by omega)
            (by omega) (by omega)
          refine ⟨al ++ [Col.pair a[i] b[j]], ?_, ?_, ?_, ?_⟩
          · rw [proj1_append, h1, take_succ_of_lt a hia]; rfl
          · rw [proj2_append, h2, take_succ_of_lt b hjb]; rfl
          · rw [foldScore_concat, h3, ← hval]; rfl
          · rw [take_succ_of_lt a hia, take_succ_of_lt b hjb]
            simp only [List.append_assoc, List.singleton_append, List.cons_append,
              render1_append, render2_append, render1, render2] at h4 ⊢
            exact h4

theorem traceback_spec (memo : Matrix)
    (hfull : FullBelow (Rg add a b match_ mismatch gap) memo a.length b.length)
    (hr : a.length < memo.rows) (hc : b.length < memo.cols) :
    ∃ al, proj1 al = a ∧ proj2 al = b ∧
      foldScore add match_ mismatch gap al = Rg add a b match_ mismatch gap a.length b.length ∧
      tracebackWith add memo (c :: a) (d :: b) gap = some (c :: render1 al, d :: render2 al) := by
  obtain ⟨al, h1, h2, h3, h4⟩ :=
    tracebackLoop_spec add c d a b match_ mismatch gap memo hfull hr hc
    ((c :: a).length + (d :: b).length) a.length b.length [] [] le_rfl le_rfl
    (by simp only [List.length_cons]; omega)
  refine ⟨al, by simpa using h1, by simpa using h2, h3, ?_⟩
  have hdec : sizeDec (c :: a).length = a.length ∧ sizeDec (d :: b).length = b.length := by
    simp [sizeDec]
  rw [tracebackWith, hdec.1, hdec.2]
  simpa using h4

/-- The whole computation from an unset table: `opt` at the terminal cell
returns the recurrence value and fills the rectangle, and `traceback` on the
resulting table prints an alignment of `a` and `b` with that score. -/
theorem pipeline_spec (memo : Matrix) (hfresh : memo.Unset)
    (hr : a.length < memo.rows) (hc : b.length < memo.cols) :
    ∃ memo' al,
      optWith add ord (c :: a) a.length (d :: b) b.length memo match_ mismatch gap
        = some (Rg add a b match_ mismatch gap a.length b.length, memo') ∧
      OptPost (Rg add a b match_ mismatch gap) memo memo' a.length b.length ∧
      proj1 al = a ∧ proj2 al = b ∧
      foldScore add match_ mismatch gap al = Rg add a b match_ mismatch gap a.length b.length ∧
      tracebackWith add memo' (c :: a) (d :: b) gap = some (c :: render1 al, d :: render2 al) := by
  obtain ⟨memo', h1, hp⟩ := opt_spec add ord c d a b match_ mismatch gap a.length b.length memo
    le_rfl le_rfl hr hc (closed_of_unset _ hfresh)
  obtain ⟨al, h2, h3, h4, h5⟩ := traceback_spec add c d a b match_ mismatch gap memo' hp.2
    (hp.1.1 ▸ hr) (hp.1.2.1 ▸ hc)
  exact ⟨memo', al, h1, hp, h2, h3, h4, h5⟩

end tracebackCorrect

/-! ## Facts about alignments -/

section alignments

variable (match_ mismatch gap : Int)

theorem render1_length (al : List Col) : (render1 al).length = al.length := by
  induction al with
  | nil => rfl
  | cons x al ih => cases x <;> simp [render1, ih]

theorem render2_length (al : List Col) : (render2 al).length = al.length := by
  induction al with
  | nil => rfl
  | cons x al ih => cases x <;> simp [render2, ih]

theorem length_le_proj (al : List Col) :
    al.length ≤ (proj1 al).length + (proj2 al).length := by
  induction al with
  | nil => simp
  | cons x al ih => cases x <;> simp [proj1, proj2] <;> omega

theorem gapped_render1 (al : List Col) : Gapped (proj1 al) (render1 al) := by
  induction al with
  | nil => exact Gapped.nil
  | cons x al ih =>
    cases x
    · exact Gapped.keep _ ih
    · exact Gapped.keep _ ih
    · exact Gapped.gap ih

theorem gapped_render2 (al : List Col) : Gapped (proj2 al) (render2 al) := by
  induction al with
  | nil => exact Gapped.nil
  | cons x al ih =>
    cases x
    · exact Gapped.keep _ ih
    · exact Gapped.gap ih
    · exact Gapped.keep _ ih

theorem Gapped.filter_eq {inp out : List Char} (h : Gapped inp out) (hno : '_' ∉ inp) :
    out.filter (fun x => x != '_') = inp := by
  induction h with
  | nil => rfl
  | keep x h ih =>
    have hx : x ≠ '_' := fun e => hno (by simp [e])
    have hno' : '_' ∉ _ := fun e => hno (List.mem_cons_of_mem _ e)
    simp [List.filter_cons, hx, ih hno']
  | gap h ih => simp [List.filter_cons, ih hno]

theorem Gapped.sublist {inp out : List Char} (h : Gapped inp out) : inp.Sublist out := by
  induction h with
  | nil => exact List.Sublist.slnil
  | keep x _ ih => exact ih.cons₂ x
  | gap _ ih => exact ih.cons _

theorem rescore_render (al : List Col) (h1 : '_' ∉ proj1 al) (h2 : '_' ∉ proj2 al)
    (p q : Char) :
    rescore match_ mismatch gap (p :: render1 al) (q :: render2 al) =
      alScore match_ mismatch gap al := by
  simp only [rescore, List.drop_succ_cons, List.drop_zero]
  induction al with
  | nil => simp [render1, render2, alScore]
  | cons x al ih =>
    cases x with
    | pair x y =>
      simp only [proj1, proj2, List.mem_cons, not_or] at h1 h2
      have := ih h1.2 h2.2
      simp only [alScore] at this ⊢
      simp [render1, render2, this, colScore, Col.score, Ne.symm h1.1, Ne.symm h2.1]
    | gapT x =>
      simp only [proj1, proj2, List.mem_cons, not_or] at h1 h2
      have := ih h1.2 h2
      simp only [alScore] at this ⊢
      simp [render1, render2, this, colScore, Col.score]
    | gapS y =>
      simp only [proj1, proj2, List.mem_cons, not_or] at h1 h2
      have := ih h1 h2.2
      simp only [alScore] at this ⊢
      simp [render1, render2, this, colScore, Col.score]

end alignments

/-! ## Facts about the recurrence -/

section recurrence

variable (a b : List Char) (match_ mismatch gap : Int)

theorem R_row_zero (j : Nat) : R a b match_ mismatch gap 0 j = j * gap := by
  induction j with
  | zero => simp [R_zero_zero]
  | succ j ih => rw [R_zero_succ, ih]; push_cast; ring

theorem R_col_zero (i : Nat) : R a b match_ mismatch gap i 0 = i * gap := by
  induction i with
  | zero => simp [R_zero_zero]
  | succ i ih => rw [R_succ_zero, ih]; push_cast; ring

/-- The recurrence value at `(i, j)` depends only on the first `i` characters
of `a` and the first `j` characters of `b`. -/
theorem R_congr (a' b' : List Char) : ∀ (i j : Nat),
    (∀ k, k < i → a[k]? = a'[k]?) → (∀ k, k < j → b[k]? = b'[k]?) →
    R a b match_ mismatch gap i j = R a' b' match_ mismatch gap i j := by
  intro i
  induction i with
  | zero => intro j _ _; rw [R_row_zero, R_row_zero]
  | succ i ihi =>
    intro j
    induction j with
    | zero => intro _ _; rw [R_col_zero, R_col_zero]
    | succ j ihj =>
      intro ha hb
      have ha' : ∀ k, k < i → a[k]? = a'[k]? := fun k hk => ha k (by omega)
      have hb' : ∀ k, k < j → b[k]? = b'[k]? := fun k hk => hb k (by omega)
      rw [R_succ_succ, R_succ_succ, ihi (j + 1) ha' hb, ihj ha hb', ihi j ha' hb',
        ha i (Nat.lt_succ_self i), hb j (Nat.lt_succ_self j)]

theorem R_append (x y : List Char) (i j : Nat) (hi : i ≤ a.length) (hj : j ≤ b.length) :
    R (a ++ x) (b ++ y) match_ mismatch gap i j = R a b match_ mismatch gap i j := by
  apply R_congr
  · intro k hk; exact List.getElem?_append_left (by omega)
  · intro k hk; exact List.getElem?_append_left (by omega)

theorem R_swap : ∀ (i j : Nat),
    R a b match_ mismatch gap i j = R b a match_ mismatch gap j i := by
  intro i
  induction i with
  | zero => intro j; rw [R_row_zero, R_col_zero]
  | succ i ihi =>
    intro j
    induction j with
    | zero => rw [R_row_zero, R_col_zero]
    | succ j ihj =>
      rw [R_succ_succ, R_succ_succ, ihi (j + 1), ihj, ihi j, max_left_comm]
      have : (a[i]? = b[j]?) ↔ (b[j]? = a[i]?) := eq_comm
      simp only [this]

theorem R_mono_match (match' : Int) (h : match_ ≤ match') : ∀ (i j : Nat),
    R a b match_ mismatch gap i j ≤ R a b match' mismatch gap i j := by
  intro i
  induction i with
  | zero => intro j; rw [R_row_zero, R_row_zero]
  | succ i ihi =>
    intro j
    induction j with
    | zero => rw [R_col_zero, R_col_zero]
    | succ j ihj =>
      rw [R_succ_succ, R_succ_succ]
      refine max_le_max (by linarith [ihi (j + 1)]) (max_le_max (by linarith [ihj]) ?_)
      have := ihi j
      split_ifs <;> linarith

theorem R_up_le (i j : Nat) :
    R a b match_ mismatch gap i j + gap ≤ R a b match_ mismatch gap (i + 1) j := by
  cases j with
  | zero => rw [R_succ_zero]
  | succ j => rw [R_succ_succ]; exact le_max_left _ _

theorem R_left_le (i j : Nat) :
    R a b match_ mismatch gap i j + gap ≤ R a b match_ mismatch gap i (j + 1) := by
  cases i with
  | zero => rw [R_zero_succ]
  | succ i => rw [R_succ_succ]; exact le_max_of_le_right (le_max_left _ _)

/-- No alignment of `a` and `b` scores more than the recurrence value at the
terminal cell. -/
theorem alScore_le_R (al : List Col) :
    alScore match_ mismatch gap al ≤
      R (proj1 al) (proj2 al) match_ mismatch gap (proj1 al).length (proj2 al).length := by
  induction al using List.reverseRecOn with
  | nil => simp [alScore, proj1, proj2, R_zero_zero]
  | append_singleton al x ih =>
    rw [alScore_append, proj1_append, proj2_append]
    cases x with
    | pair x y =>
      simp only [proj1, proj2, List.length_append, List.length_singleton]
      rw [R_succ_succ]
      refine le_trans ?_ (le_max_of_le_right (le_max_right _ _))
      rw [R_append _ _ _ _ _ _ _ _ _ le_rfl le_rfl]
      simp [alScore, Col.score]
      exact ih
    | gapT x =>
      simp only [proj1, proj2, List.length_append, List.length_singleton, List.append_nil]
      refine le_trans ?_ (R_up_le _ _ _ _ _ _ _)
      have := R_append (proj1 al) (proj2 al) match_ mismatch gap [x] [] _ _ le_rfl le_rfl
      rw [List.append_nil] at this
      rw [this]
      simp [alScore, Col.score]
      exact ih
    | gapS y =>
      simp only [proj1, proj2, List.length_append, List.length_singleton, List.append_nil]
      refine le_trans ?_ (R_left_le _ _ _ _ _ _ _)
      have := R_append (proj1 al) (proj2 al) match_ mismatch gap [] [y] _ _ le_rfl le_rfl
      rw [List.append_nil] at this
      rw [this]
      simp [alScore, Col.score]
      exact ih

end recurrence

/-! ## The computation under exact arithmetic -/

section exact

variable (ord : ArgOrder) (c d : Char) (a b : List Char) (match_ mismatch gap : Int)

theorem opt_exact (i j : Nat) (memo : Matrix)
    (hi : i ≤ a.length) (hj : j ≤ b.length) (hr : i < memo.rows) (hc : j < memo.cols)
    (hcl : Closed (R a b match_ mismatch gap) memo) :
    ∃ memo', opt ord (c :: a) i (d :: b) j memo match_ mismatch gap
        = some (R a b match_ mismatch gap i j, memo') ∧
      OptPost (R a b match_ mismatch gap) memo memo' i j := by
  have h := opt_spec addZ ord c d a b match_ mismatch gap i j memo hi hj hr hc
  rw [Rg_addZ_fun] at h
  exact h hcl

theorem pipeline_exact (memo : Matrix) (hfresh : memo.Unset)
    (hr : a.length < memo.rows) (hc : b.length < memo.cols) :
    ∃ memo' al,
      opt ord (c :: a) a.length (d :: b) b.length memo match_ mismatch gap
        = some (R a b match_ mismatch gap a.length b.length, memo') ∧
      OptPost (R a b match_ mismatch gap) memo memo' a.length b.length ∧
      proj1 al = a ∧ proj2 al = b ∧
      alScore match_ mismatch gap al = R a b match_ mismatch gap a.length b.length ∧
      traceback memo' (c :: a) (d :: b) gap = some (c :: render1 al, d :: render2 al) := by
  obtain ⟨memo', al, h⟩ := pipeline_spec addZ ord c d a b match_ mismatch gap memo hfresh hr hc
  rw [Rg_addZ_fun, foldScore_addZ] at h
  exact ⟨memo', al, h⟩

/-- For two copies of one sequence the diagonal is optimal as soon as a
substitution is no better than a match and two gaps are no better than a
match. -/
theorem R_le_half (hm : mismatch ≤ match_) (hg : 2 * gap ≤ match_) : ∀ (i j : Nat),
    2 * R a b match_ mismatch gap i j ≤ ((i : Int) + j) * match_ := by
  intro i
  induction i with
  | zero => intro j; rw [R_row_zero]; push_cast; nlinarith [Int.ofNat_nonneg j]
  | succ i ihi =>
    intro j
    induction j with
    | zero => rw [R_col_zero]; push_cast; nlinarith [Int.ofNat_nonneg i]
    | succ j ihj =>
      rw [R_succ_succ]
      have h1 := ihi (j + 1)
      have h2 := ihj
      have h3 := ihi j
      push_cast at h1 h2 h3 ⊢
      have hsub : (if a[i]? = b[j]? then match_ else mismatch) ≤ match_ := by
        split_ifs
        · exact le_rfl
        · exact hm
      rcases max_choice (R a b match_ mismatch gap i (j + 1) + gap)
        (max (R a b match_ mismatch gap (i + 1) j + gap)
          (R a b match_ mismatch gap i j + (if a[i]? = b[j]? then match_ else mismatch)))
        with h | h
      · rw [h]; linarith
      · rw [h]
        rcases max_choice (R a b match_ mismatch gap (i + 1) j + gap)
          (R a b match_ mismatch gap i j + (if a[i]? = b[j]? then match_ else mismatch))
          with h' | h'
        · rw [h']; linarith
        · rw [h']; linarith

theorem R_diag_ge : ∀ (i : Nat), i ≤ a.length →
    (i : Int) * match_ ≤ R a a match_ mismatch gap i i := by
  intro i
  induction i with
  | zero => intro _; simp [R_zero_zero]
  | succ i ih =>
    intro hi
    rw [R_succ_succ]
    refine le_trans ?_ (le_max_of_le_right (le_max_right _ _))
    have := ih (by omega)
    simp only [if_true]
    push_cast
    linarith

theorem R_identical (hm : mismatch ≤ match_) (hg : 2 * gap ≤ match_) :
    R a a match_ mismatch gap a.length a.length = (a.length : Int) * match_ := by
  have h1 := R_le_half a a match_ mismatch gap hm hg a.length a.length
  have h2 := R_diag_ge a match_ mismatch gap a.length le_rfl
  linarith

theorem render_of_proj1_nil (al : List Col) (h : proj1 al = []) :
    render1 al = List.replicate (proj2 al).length '_' ∧ render2 al = proj2 al := by
  induction al with
  | nil => exact ⟨rfl, rfl⟩
  | cons x al ih =>
    cases x with
    | pair x y => simp [proj1] at h
    | gapT x => simp [proj1] at h
    | gapS y =>
      have := ih (by simpa [proj1] using h)
      simp [render1, render2, proj2, this.1, this.2, List.replicate_succ]

theorem render_of_proj2_nil (al : List Col) (h : proj2 al = []) :
    render2 al = List.replicate (proj1 al).length '_' ∧ render1 al = proj1 al := by
  induction al with
  | nil => exact ⟨rfl, rfl⟩
  | cons x al ih =>
    cases x with
    | pair x y => simp [proj2] at h
    | gapS y => simp [proj2] at h
    | gapT x =>
      have := ih (by simpa [proj2] using h)
      simp [render1, render2, proj1, this.1, this.2, List.replicate_succ]

end exact

/-! ## Further facts used by the later claims -/

section scenario

/-- The recurrence value of the end-to-end scenario, read off one evaluation
of `opt`. -/
theorem R_scenario :
    R "GCATGCU".toList "GATTACA".toList 1 (-1) (-1) 7 7 = 0 := by
  obtain ⟨memo', h, _⟩ := opt_exact .o123 ' ' ' ' "GCATGCU".toList "GATTACA".toList 1 (-1) (-1)
    7 7 (Matrix.fill 9 9 INF) (by decide) (by decide) (by decide) (by decide)
    (closed_of_unset _ (fun _ _ _ _ => rfl))
  have hd : (opt .o123 (' ' :: "GCATGCU".toList) 7 (' ' :: "GATTACA".toList) 7
      (Matrix.fill 9 9 INF) 1 (-1) (-1)).map Prod.fst = some 0 := by
    set_option maxRecDepth 100000 in decide
  rw [h] at hd
  exact Option.some.inj hd

end scenario

section noDoubleGap

/-- An alignment of two sequences without `_` never prints `_` in both rows
of one column. -/
theorem render_no_double_gap (al : List Col) (h1 : '_' ∉ proj1 al) (h2 : '_' ∉ proj2 al) :
    ∀ k : Nat, ¬((render1 al)[k]? = some '_' ∧ (render2 al)[k]? = some '_') := by
  induction al with
  | nil => intro k h; simp [render1] at h
  | cons x al ih =>
    intro k
    cases x with
    | pair x y =>
      simp only [proj1, proj2, List.mem_cons, not_or] at h1 h2
      cases k with
      | zero =>
        intro h
        simp only [render1, List.getElem?_cons_zero, Option.some.injEq] at h
        exact h1.1 h.1.symm
      | succ k => simpa [render1, render2] using ih h1.2 h2.2 k
    | gapT x =>
      simp only [proj1, proj2, List.mem_cons, not_or] at h1 h2
      cases k with
      | zero =>
        intro h
        simp only [render1, List.getElem?_cons_zero, Option.some.injEq] at h
        exact h1.1 h.1.symm
      | succ k => simpa [render1, render2] using ih h1.2 h2 k
    | gapS y =>
      simp only [proj1, proj2, List.mem_cons, not_or] at h1 h2
      cases k with
      | zero =>
        intro h
        simp only [render2, List.getElem?_cons_zero, Option.some.injEq] at h
        exact h2.1 h.2.symm
      | succ k => simpa [render1, render2] using ih h1 h2.2 k

end noDoubleGap

section bounds

variable (a b : List Char) (match_ mismatch gap : Int)

theorem add32_of_inRange {x y : Int} (h : InRange32 (x + y)) : add32 x y = x + y := by
  obtain ⟨h1, h2⟩ := h
  unfold add32
  have : (x + y + 2 ^ 31) % 2 ^ 32 = x + y + 2 ^ 31 :=
    Int.emod_eq_of_lt (by omega) (by omega)
  omega

/-- Each step of the recurrence moves the value by at most `K`. -/
theorem R_abs_le (K : Int) (hm : |match_| ≤ K) (hx : |mismatch| ≤ K) (hg : |gap| ≤ K) :
    ∀ (i j : Nat), |R a b match_ mismatch gap i j| ≤ ((i : Int) + j) * K := by
  have hm' := abs_le.mp hm
  have hx' := abs_le.mp hx
  have hg' := abs_le.mp hg
  have hK : 0 ≤ K := le_trans (abs_nonneg _) hg
  intro i
  induction i with
  | zero =>
    intro j
    induction j with
    | zero => simp [R_zero_zero]
    | succ j ih =>
      rw [R_zero_succ, abs_le]
      have := abs_le.mp ih
      push_cast at this ⊢
      constructor <;> nlinarith
  | succ i ihi =>
    intro j
    induction j with
    | zero =>
      rw [R_succ_zero, abs_le]
      have := abs_le.mp (ihi 0)
      push_cast at this ⊢
      constructor <;> nlinarith
    | succ j ihj =>
      rw [R_succ_succ, abs_le]
      have h1 := abs_le.mp (ihi (j + 1))
      have h2 := abs_le.mp ihj
      have h3 := abs_le.mp (ihi j)
      have hs : -K ≤ (if a[i]? = b[j]? then match_ else mismatch) ∧
          (if a[i]? = b[j]? then match_ else mismatch) ≤ K := by
        split_ifs
        · exact hm'
        · exact hx'
      push_cast at h1 h2 h3 ⊢
      constructor
      · exact le_trans (by nlinarith) (le_max_left _ _)
      · refine max_le (by nlinarith) (max_le (by nlinarith) (by nlinarith [hs.2]))

theorem R_ne_INF_of_bound (K : Int) (hm : |match_| ≤ K) (hx : |mismatch| ≤ K) (hg : |gap| ≤ K)
    (n m : Nat) (hK : ((n : Int) + m) * K < INF) :
    ∀ i, i ≤ n → ∀ j, j ≤ m → R a b match_ mismatch gap i j ≠ INF := by
  intro i hi j hj h
  have h1 := (abs_le.mp (R_abs_le a b match_ mismatch gap K hm hx hg i j)).2
  have hK0 : 0 ≤ K := le_trans (abs_nonneg _) hg
  have : ((i : Int) + j) * K ≤ ((n : Int) + m) * K :=
    mul_le_mul_of_nonneg_right (by exact_mod_cast Nat.add_le_add hi hj) hK0
  rw [h] at h1
  linarith

theorem noOverflow_of_bound (K : Int) (hm : |match_| ≤ K) (hx : |mismatch| ≤ K)
    (hg : |gap| ≤ K) (n m : Nat) (hK : ((n : Int) + m) * K < INF) :
    NoOverflow a b match_ mismatch gap n m := by
  have hm' := abs_le.mp hm
  have hx' := abs_le.mp hx
  have hg' := abs_le.mp hg
  have hK0 : 0 ≤ K := le_trans (abs_nonneg _) hg
  have hINF : INF = 2147483647 := rfl
  intro i hi j hj
  have hR := abs_le.mp (R_abs_le a b match_ mismatch gap K hm hx hg i j)
  have key : i + j < n + m → ((i : Int) + j + 1) * K ≤ ((n : Int) + m) * K := fun h =>
    mul_le_mul_of_nonneg_right (by exact_mod_cast h) hK0
  refine ⟨fun h => ?_, fun h1 h2 => ?_⟩
  · have := key (by omega)
    unfold InRange32
    constructor <;> nlinarith
  · have := key (by omega)
    have hs : -K ≤ (if a[i]? = b[j]? then match_ else mismatch) ∧
        (if a[i]? = b[j]? then match_ else mismatch) ≤ K := by
      split_ifs
      · exact hm'
      · exact hx'
    unfold InRange32
    constructor <;> nlinarith [hs.1, hs.2]

/-- Without overflow the table computed with 32-bit wrapping additions is the
exact recurrence. -/
theorem Rg_add32_eq (n m : Nat) (h : NoOverflow a b match_ mismatch gap n m) :
    ∀ i, i ≤ n → ∀ j, j ≤ m →
      Rg add32 a b match_ mismatch gap i j = R a b match_ mismatch gap i j := by
  intro i
  induction i with
  | zero =>
    intro _ j
    induction j with
    | zero => intro _; rw [Rg_zero_zero, R_zero_zero]
    | succ j ih =>
      intro hj
      rw [Rg_zero_succ, R_zero_succ, ih (by omega),
        add32_of_inRange ((h 0 (Nat.zero_le _) j (by omega)).1 (Or.inr (by omega)))]
  | succ i ihi =>
    intro hi j
    induction j with
    | zero =>
      intro _
      rw [Rg_succ_zero, R_succ_zero, ihi (by omega) 0 (Nat.zero_le _),
        add32_of_inRange ((h i (by omega) 0 (Nat.zero_le _)).1 (Or.inl (by omega)))]
    | succ j ihj =>
      intro hj
      rw [Rg_succ_succ, R_succ_succ, ihi (by omega) (j + 1) hj, ihj (by omega),
        ihi (by omega) j (by omega), max3_eq_max,
        add32_of_inRange ((h i (by omega) (j + 1) hj).1 (Or.inl (by omega))),
        add32_of_inRange ((h (i + 1) hi j (by omega)).1 (Or.inr (by omega))),
        add32_of_inRange ((h i (by omega) j (by omega)).2 (by omega) (by omega))]

end bounds

/-! ## The frame of `opt` on arbitrary tables -/

section writeOnce

theorem writeOnce_refl (m : Matrix) (i j : Nat) : WriteOnce m m i j :=
  ⟨rfl, rfl, fun _ _ => Or.inl rfl⟩

theorem writeOnce_mono {m m' : Matrix} {p q i j : Nat} (h : WriteOnce m m' p q)
    (hp : p ≤ i) (hq : q ≤ j) : WriteOnce m m' i j := by
  refine ⟨h.1, h.2.1, fun r c => ?_⟩
  rcases h.2.2 r c with h' | ⟨h1, h2, h3⟩
  · exact Or.inl h'
  · exact Or.inr ⟨le_trans h1 hp, le_trans h2 hq, h3⟩

theorem writeOnce_trans {m m1 m2 : Matrix} {i j : Nat} (h1 : WriteOnce m m1 i j)
    (h2 : WriteOnce m1 m2 i j) : WriteOnce m m2 i j := by
  refine ⟨h2.1.trans h1.1, h2.2.1.trans h1.2.1, fun r c => ?_⟩
  rcases h1.2.2 r c with e1 | e1
  · rcases h2.2.2 r c with e2 | ⟨a1, a2, a3, a4, a5⟩
    · exact Or.inl (e2.trans e1)
    · exact Or.inr ⟨a1, a2, h1.1 ▸ a3, h1.2.1 ▸ a4, e1 ▸ a5⟩
  · exact Or.inr e1

theorem writeOnce_set {m w w' : Matrix} {i j : Nat} {v : Int} (h : WriteOnce m w i j)
    (hcur : m.data i j = INF) (hs : w.set i j v = some w') :
    WriteOnce m w' i j ∧ w'.at_ i j = some v := by
  unfold Matrix.set at hs
  split at hs
  · rename_i hb
    cases hs
    refine ⟨⟨h.1, h.2.1, fun r c => ?_⟩, by simp [Matrix.at_, hb]⟩
    by_cases e : r = i ∧ c = j
    · obtain ⟨rfl, rfl⟩ := e
      exact Or.inr ⟨le_rfl, le_rfl, h.1 ▸ hb.1, h.2.1 ▸ hb.2, hcur⟩
    · simp only [e, if_false]
      exact h.2.2 r c
  · cases hs

/-- A transitive relation between the table before and after, that every
argument computation establishes, holds across `evalArgs`. -/
theorem evalArgs_post (Q : Matrix → Matrix → Prop)
    (htrans : ∀ m m1 m2, Q m m1 → Q m1 m2 → Q m m2)
    (ord : ArgOrder) (f1 f2 f3 : Matrix → Option (Int × Matrix))
    (h1 : ∀ m v m', f1 m = some (v, m') → Q m m')
    (h2 : ∀ m v m', f2 m = some (v, m') → Q m m')
    (h3 : ∀ m v m', f3 m = some (v, m') → Q m m')
    (m : Matrix) (v1 v2 v3 : Int) (m3 : Matrix)
    (h : evalArgs ord f1 f2 f3 m = some (v1, v2, v3, m3)) : Q m m3 := by
  cases ord <;>
    simp only [evalArgs, Option.bind_eq_bind, Option.bind_eq_some, Option.pure_def,
      Option.some.injEq, Prod.exists, Prod.mk.injEq] at h <;>
    obtain ⟨x, ma, ea, y, mb, eb, z, mc, ec, -, -, -, rfl⟩ := h
  · exact htrans _ _ _ (htrans _ _ _ (h1 _ _ _ ea) (h2 _ _ _ eb)) (h3 _ _ _ ec)
  · exact htrans _ _ _ (htrans _ _ _ (h1 _ _ _ ea) (h3 _ _ _ eb)) (h2 _ _ _ ec)
  · exact htrans _ _ _ (htrans _ _ _ (h2 _ _ _ ea) (h1 _ _ _ eb)) (h3 _ _ _ ec)
  · exact htrans _ _ _ (htrans _ _ _ (h2 _ _ _ ea) (h3 _ _ _ eb)) (h1 _ _ _ ec)
  · exact htrans _ _ _ (htrans _ _ _ (h3 _ _ _ ea) (h1 _ _ _ eb)) (h2 _ _ _ ec)
  · exact htrans _ _ _ (htrans _ _ _ (h3 _ _ _ ea) (h2 _ _ _ eb)) (h1 _ _ _ ec)

theorem optFuel_writeOnce (add : Int → Int → Int) (ord : ArgOrder) (s t : List Char)
    (match_ mismatch gap : Int) : ∀ (fuel i j : Nat) (memo : Matrix) (v : Int) (memo' : Matrix),
    optFuel add ord s t match_ mismatch gap fuel i j memo = some (v, memo') →
    WriteOnce memo memo' i j ∧ memo'.at_ i j = some v := by
  intro fuel
  induction fuel with
  | zero => intro i j memo v memo' h; simp [optFuel] at h
  | succ fuel ih =>
    intro i j memo v memo' h
    rw [optFuel] at h
    cases hcur : memo.at_ i j with
    | none => simp [hcur] at h
    | some cur =>
      have hdata : cur = memo.data i j := by
        unfold Matrix.at_ at hcur
        split at hcur
        · exact (Option.some.inj hcur).symm
        · cases hcur
      simp only [hcur, Option.bind_eq_bind, Option.some_bind, Option.pure_def] at h
      by_cases hinf : cur = INF
      · simp only [hinf, if_true] at h
        have hcell : memo.data i j = INF := hdata ▸ hinf
        have fin : ∀ (w : Matrix) (val : Int), WriteOnce memo w i j →
            ((w.set i j val).bind fun y => (y.at_ i j).bind fun r => some (r, y))
              = some (v, memo') →
            WriteOnce memo memo' i j ∧ memo'.at_ i j = some v := by
          intro w val hw hb
          obtain ⟨y, hy, hb⟩ := Option.bind_eq_some.mp hb
          obtain ⟨r, hr, hb⟩ := Option.bind_eq_some.mp hb
          obtain ⟨rfl, rfl⟩ := Prod.mk.inj (Option.some.inj hb)
          exact ⟨(writeOnce_set hw hcell hy).1, hr⟩
        have sub : ∀ (p q : Nat) (m : Matrix) (x : Int) (m' : Matrix), p ≤ i → q ≤ j →
            optFuel add ord s t match_ mismatch gap fuel p q m = some (x, m') →
            WriteOnce m m' i j := fun p q m x m' hp hq e =>
          writeOnce_mono (ih p q m x m' e).1 hp hq
        by_cases hi : i = 0
        · by_cases hj : j = 0
          · subst hi hj
            simp only [and_self, if_true] at h
            exact fin memo 0 (writeOnce_refl _ _ _) h
          · subst hi
            simp only [hj, and_false, if_false, if_true] at h
            obtain ⟨⟨v1, m1⟩, e1, h⟩ := Option.bind_eq_some.mp h
            exact fin m1 _ (sub 0 (j - 1) memo v1 m1 le_rfl (Nat.sub_le _ _) e1) h
        · by_cases hj : j = 0
          · subst hj
            simp only [hi, false_and, if_false, if_true] at h
            obtain ⟨⟨v1, m1⟩, e1, h⟩ := Option.bind_eq_some.mp h
            exact fin m1 _ (sub (i - 1) 0 memo v1 m1 (Nat.sub_le _ _) le_rfl e1) h
          · simp only [hi, hj, false_and, and_false, if_false] at h
            obtain ⟨x, -, h⟩ := Option.bind_eq_some.mp h
            obtain ⟨y, -, h⟩ := Option.bind_eq_some.mp h
            have args : ∀ (v1 v2 v3 : Int) (m3 : Matrix),
                evalArgs ord (optFuel add ord s t match_ mismatch gap fuel (i - 1) j)
                  (optFuel add ord s t match_ mismatch gap fuel i (j - 1))
                  (optFuel add ord s t match_ mismatch gap fuel (i - 1) (j - 1)) memo
                  = some (v1, v2, v3, m3) → WriteOnce memo m3 i j :=
              fun v1 v2 v3 m3 e =>
                evalArgs_post (fun m m' => WriteOnce m m' i j)
                  (fun _ _ _ => writeOnce_trans) ord _ _ _
                  (fun m x m' => sub (i - 1) j m x m' (Nat.sub_le _ _) le_rfl)
                  (fun m x m' => sub i (j - 1) m x m' le_rfl (Nat.sub_le _ _))
                  (fun m x m' => sub (i - 1) (j - 1) m x m' (Nat.sub_le _ _) (Nat.sub_le _ _))
                  memo v1 v2 v3 m3 e
            split_ifs at h with hxy
            · obtain ⟨⟨v1, v2, v3, m3⟩, e, h⟩ := Option.bind_eq_some.mp h
              exact fin m3 _ (args v1 v2 v3 m3 e) h
            · obtain ⟨⟨v1, v2, v3, m3⟩, e, h⟩ := Option.bind_eq_some.mp h
              exact fin m3 _ (args v1 v2 v3 m3 e) h
      · simp only [hinf, if_false, Option.some_bind, hcur, Option.some.injEq,
          Prod.mk.injEq] at h
        obtain ⟨rfl, rfl⟩ := h
        exact ⟨writeOnce_refl _ _ _, hcur⟩

end writeOnce

section totalAndAgree

theorem strAt_some (s : List Char) {i : Nat} (h : i ≤ s.length) : ∃ x, strAt s i = some x := by
  have hlt : i < (s ++ [Char.ofNat 0]).length := by
    simp only [List.length_append, List.length_singleton]; omega
  exact ⟨_, List.getElem?_eq_getElem hlt⟩

/-- When every argument computation succeeds on the tables satisfying `D` and
keeps `D`, `evalArgs` succeeds. -/
theorem evalArgs_total (D : Matrix → Prop) (ord : ArgOrder)
    (f1 f2 f3 : Matrix → Option (Int × Matrix))
    (h1 : ∀ m, D m → ∃ v m', f1 m = some (v, m') ∧ D m')
    (h2 : ∀ m, D m → ∃ v m', f2 m = some (v, m') ∧ D m')
    (h3 : ∀ m, D m → ∃ v m', f3 m = some (v, m') ∧ D m')
    (m : Matrix) (hm : D m) :
    ∃ v1 v2 v3 m3, evalArgs ord f1 f2 f3 m = some (v1, v2, v3, m3) ∧ D m3 := by
  cases ord
  · obtain ⟨x, ma, ea, da⟩ := h1 m hm
    obtain ⟨y, mb, eb, db⟩ := h2 ma da
    obtain ⟨z, mc, ec, dc⟩ := h3 mb db
    exact ⟨x, y, z, mc, by simp [evalArgs, ea, eb, ec], dc⟩
  · obtain ⟨x, ma, ea, da⟩ := h1 m hm
    obtain ⟨z, mb, eb, db⟩ := h3 ma da
    obtain ⟨y, mc, ec, dc⟩ := h2 mb db
    exact ⟨x, y, z, mc, by simp [evalArgs, ea, eb, ec], dc⟩
  · obtain ⟨y, ma, ea, da⟩ := h2 m hm
    obtain ⟨x, mb, eb, db⟩ := h1 ma da
    obtain ⟨z, mc, ec, dc⟩ := h3 mb db
    exact ⟨x, y, z, mc, by simp [evalArgs, ea, eb, ec], dc⟩
  · obtain ⟨y, ma, ea, da⟩ := h2 m hm
    obtain ⟨z, mb, eb, db⟩ := h3 ma da
    obtain ⟨x, mc, ec, dc⟩ := h1 mb db
    exact ⟨x, y, z, mc, by simp [evalArgs, ea, eb, ec], dc⟩
  · obtain ⟨z, ma, ea, da⟩ := h3 m hm
    obtain ⟨x, mb, eb, db⟩ := h1 ma da
    obtain ⟨y, mc, ec, dc⟩ := h2 mb db
    exact ⟨x, y, z, mc, by simp [evalArgs, ea, eb, ec], dc⟩
  · obtain ⟨z, ma, ea, da⟩ := h3 m hm
    obtain ⟨y, mb, eb, db⟩ := h2 ma da
    obtain ⟨x, mc, ec, dc⟩ := h1 mb db
    exact ⟨x, y, z, mc, by simp [evalArgs, ea, eb, ec], dc⟩

/-- Inside the table and inside the strings `opt` never fails, whatever the
table holds and whatever the addition does. -/
theorem optFuel_total (add : Int → Int → Int) (ord : ArgOrder) (s t : List Char)
    (match_ mismatch gap : Int) : ∀ (fuel i j : Nat) (memo : Matrix), i + j < fuel →
    i ≤ s.length → j ≤ t.length → i < memo.rows → j < memo.cols →
    ∃ v memo', optFuel add ord s t match_ mismatch gap fuel i j memo = some (v, memo') := by
  intro fuel
  induction fuel with
  | zero => intro i j memo h; omega
  | succ fuel ih =>
    intro i j memo hfuel hi hj hr hc
    have sub : ∀ (p q : Nat), p ≤ i → q ≤ j → p + q < fuel → ∀ m : Matrix,
        m.rows = memo.rows ∧ m.cols = memo.cols →
        ∃ v m', optFuel add ord s t match_ mismatch gap fuel p q m = some (v, m') ∧
          (m'.rows = memo.rows ∧ m'.cols = memo.cols) := by
      intro p q hp hq hpq m hm
      obtain ⟨v, m', e⟩ := ih p q m hpq (by omega) (by omega) (by omega) (by omega)
      have hw := (optFuel_writeOnce add ord s t match_ mismatch gap fuel p q m v m' e).1
      exact ⟨v, m', e, hw.1.trans hm.1, hw.2.1.trans hm.2⟩
    have fin : ∀ (w : Matrix) (val : Int), w.rows = memo.rows ∧ w.cols = memo.cols →
        ∃ v memo', ((w.set i j val).bind fun y => (y.at_ i j).bind fun r => some (r, y))
          = some (v, memo') := by
      intro w val hw
      have h1 : i < w.rows := by omega
      have h2 : j < w.cols := by omega
      refine ⟨val,
        { w with data := fun r' c' => if r' = i ∧ c' = j then val else w.data r' c' }, ?_⟩
      simp [Matrix.set, Matrix.at_, h1, h2]
    rw [optFuel]
    simp only [memo.at_of_lt hr hc, Option.bind_eq_bind, Option.some_bind, Option.pure_def]
    by_cases hinf : memo.data i j = INF
    · simp only [hinf, if_true]
      by_cases hi0 : i = 0
      · by_cases hj0 : j = 0
        · subst hi0 hj0
          simp only [and_self, if_true]
          exact fin memo 0 ⟨rfl, rfl⟩
        · subst hi0
          simp only [hj0, and_false, if_false, if_true]
          obtain ⟨v1, m1, e1, d1⟩ := sub 0 (j - 1) le_rfl (Nat.sub_le _ _) (by omega) memo
            ⟨rfl, rfl⟩
          simp only [e1, Option.some_bind]
          exact fin m1 _ d1
      · by_cases hj0 : j = 0
        · subst hj0
          simp only [hi0, false_and, if_false, if_true]
          obtain ⟨v1, m1, e1, d1⟩ := sub (i - 1) 0 (Nat.sub_le _ _) le_rfl (by omega) memo
            ⟨rfl, rfl⟩
          simp only [e1, Option.some_bind]
          exact fin m1 _ d1
        · simp only [hi0, hj0, false_and, and_false, if_false]
          obtain ⟨x, hx⟩ := strAt_some s hi
          obtain ⟨y, hy⟩ := strAt_some t hj
          obtain ⟨v1, v2, v3, m3, e, d3⟩ := evalArgs_total
            (fun m => m.rows = memo.rows ∧ m.cols = memo.cols) ord
            (optFuel add ord s t match_ mismatch gap fuel (i - 1) j)
            (optFuel add ord s t match_ mismatch gap fuel i (j - 1))
            (optFuel add ord s t match_ mismatch gap fuel (i - 1) (j - 1))
            (sub (i - 1) j (Nat.sub_le _ _) le_rfl (by omega))
            (sub i (j - 1) le_rfl (Nat.sub_le _ _) (by omega))
            (sub (i - 1) (j - 1) (Nat.sub_le _ _) (Nat.sub_le _ _) (by omega))
            memo ⟨rfl, rfl⟩
          simp only [hx, hy, Option.some_bind, e]
          split_ifs
          · exact fin m3 _ d3
          · exact fin m3 _ d3
    · exact ⟨memo.data i j, memo, by simp [hinf, memo.at_of_lt hr hc]⟩

end totalAndAgree

section agreement

/-- A relation between two tables that every argument computation carries
from a run on the first to a run on the second, with the same value, is
carried across `evalArgs`. -/
theorem evalArgs_sim (S : Matrix → Matrix → Prop) (ord : ArgOrder)
    (f1 f2 f3 : Matrix → Option (Int × Matrix))
    (h1 : ∀ m1 m2 v m1', S m1 m2 → f1 m1 = some (v, m1') →
      ∃ m2', f1 m2 = some (v, m2') ∧ S m1' m2')
    (h2 : ∀ m1 m2 v m1', S m1 m2 → f2 m1 = some (v, m1') →
      ∃ m2', f2 m2 = some (v, m2') ∧ S m1' m2')
    (h3 : ∀ m1 m2 v m1', S m1 m2 → f3 m1 = some (v, m1') →
      ∃ m2', f3 m2 = some (v, m2') ∧ S m1' m2')
    (m1 m2 : Matrix) (hS : S m1 m2) (v1 v2 v3 : Int) (m1' : Matrix)
    (h : evalArgs ord f1 f2 f3 m1 = some (v1, v2, v3, m1')) :
    ∃ m2', evalArgs ord f1 f2 f3 m2 = some (v1, v2, v3, m2') ∧ S m1' m2' := by
  cases ord <;>
    simp only [evalArgs, Option.bind_eq_bind, Option.bind_eq_some, Option.pure_def,
      Option.some.injEq, Prod.exists, Prod.mk.injEq] at h <;>
    obtain ⟨x, ma, ea, y, mb, eb, z, mc, ec, rfl, rfl, rfl, rfl⟩ := h
  · obtain ⟨na, fa, sa⟩ := h1 _ _ _ _ hS ea
    obtain ⟨nb, fb, sb⟩ := h2 _ _ _ _ sa eb
    obtain ⟨nc, fc, sc⟩ := h3 _ _ _ _ sb ec
    exact ⟨nc, by simp [evalArgs, fa, fb, fc], sc⟩
  · obtain ⟨na, fa, sa⟩ := h1 _ _ _ _ hS ea
    obtain ⟨nb, fb, sb⟩ := h3 _ _ _ _ sa eb
    obtain ⟨nc, fc, sc⟩ := h2 _ _ _ _ sb ec
    exact ⟨nc, by simp [evalArgs, fa, fb, fc], sc⟩
  · obtain ⟨na, fa, sa⟩ := h2 _ _ _ _ hS ea
    obtain ⟨nb, fb, sb⟩ := h1 _ _ _ _ sa eb
    obtain ⟨nc, fc, sc⟩ := h3 _ _ _ _ sb ec
    exact ⟨nc, by simp [evalArgs, fa, fb, fc], sc⟩
  · obtain ⟨na, fa, sa⟩ := h2 _ _ _ _ hS ea
    obtain ⟨nb, fb, sb⟩ := h3 _ _ _ _ sa eb
    obtain ⟨nc, fc, sc⟩ := h1 _ _ _ _ sb ec
    exact ⟨nc, by simp [evalArgs, fa, fb, fc], sc⟩
  · obtain ⟨na, fa, sa⟩ := h3 _ _ _ _ hS ea
    obtain ⟨nb, fb, sb⟩ := h1 _ _ _ _ sa eb
    obtain ⟨nc, fc, sc⟩ := h2 _ _ _ _ sb ec
    exact ⟨nc, by simp [evalArgs, fa, fb, fc], sc⟩
  · obtain ⟨na, fa, sa⟩ := h3 _ _ _ _ hS ea
    obtain ⟨nb, fb, sb⟩ := h2 _ _ _ _ sa eb
    obtain ⟨nc, fc, sc⟩ := h1 _ _ _ _ sb ec
    exact ⟨nc, by simp [evalArgs, fa, fb, fc], sc⟩

theorem agreeOn_mono {i j p q : Nat} {m1 m2 : Matrix} (h : AgreeOn i j m1 m2)
    (hp : p ≤ i) (hq : q ≤ j) : AgreeOn p q m1 m2 :=
  ⟨h.1, h.2.1, fun r hr c hc => h.2.2 r (le_trans hr hp) c (le_trans hc hq)⟩

/-- Two runs that change cells only inside `[0,p] x [0,q]` and end in
agreement there keep the agreement of a larger rectangle. -/
theorem agreeOn_of_writeOnce {i j p q : Nat} {m1 m2 m1' m2' : Matrix}
    (h : AgreeOn i j m1 m2) (h' : AgreeOn p q m1' m2')
    (w1 : WriteOnce m1 m1' p q) (w2 : WriteOnce m2 m2' p q) : AgreeOn i j m1' m2' := by
  refine ⟨h'.1, h'.2.1, fun r hr c hc => ?_⟩
  by_cases hin : r ≤ p ∧ c ≤ q
  · exact h'.2.2 r hin.1 c hin.2
  · have e1 : m1'.data r c = m1.data r c := by
      rcases w1.2.2 r c with e | ⟨a1, a2, _⟩
      · exact e
      · exact absurd ⟨a1, a2⟩ hin
    have e2 : m2'.data r c = m2.data r c := by
      rcases w2.2.2 r c with e | ⟨a1, a2, _⟩
      · exact e
      · exact absurd ⟨a1, a2⟩ hin
    rw [e1, e2, h.2.2 r hr c hc]

theorem agreeOn_at {i j : Nat} {m1 m2 : Matrix} (h : AgreeOn i j m1 m2) :
    m1.at_ i j = m2.at_ i j := by
  unfold Matrix.at_
  rw [h.1, h.2.1, h.2.2 i le_rfl j le_rfl]

theorem agreeOn_set {i j : Nat} {m1 m2 w1 : Matrix} {v : Int} (h : AgreeOn i j m1 m2)
    (hs : m1.set i j v = some w1) : ∃ w2, m2.set i j v = some w2 ∧ AgreeOn i j w1 w2 := by
  unfold Matrix.set at hs ⊢
  split at hs
  · rename_i hb
    cases hs
    have hb2 : i < m2.rows ∧ j < m2.cols := ⟨h.1 ▸ hb.1, h.2.1 ▸ hb.2⟩
    refine ⟨_, if_pos hb2, h.1, h.2.1, fun r hr c hc => ?_⟩
    simp only [h.2.2 r hr c hc]
  · cases hs

end agreement

section readsOnly

/-- The result of `opt` at `(i, j)` depends only on the size of the table and
on its cells in `[0,i] x [0,j]`: on a second table that agrees there, the call
returns the same value and leaves tables that agree there. -/
theorem optFuel_agree (add : Int → Int → Int) (ord : ArgOrder) (s t : List Char)
    (match_ mismatch gap : Int) : ∀ (fuel i j : Nat) (m1 m2 : Matrix) (v : Int) (m1' : Matrix),
    AgreeOn i j m1 m2 →
    optFuel add ord s t match_ mismatch gap fuel i j m1 = some (v, m1') →
    ∃ m2', optFuel add ord s t match_ mismatch gap fuel i j m2 = some (v, m2') ∧
      AgreeOn i j m1' m2' := by
  intro fuel
  induction fuel with
  | zero => intro i j m1 m2 v m1' _ h; simp [optFuel] at h
  | succ fuel ih =>
    intro i j m1 m2 v m1' hag h
    rw [optFuel] at h ⊢
    rw [← agreeOn_at hag]
    cases hcur : m1.at_ i j with
    | none => simp [hcur] at h
    | some cur =>
      simp only [hcur, Option.bind_eq_bind, Option.some_bind, Option.pure_def] at h ⊢
      have sub : ∀ (p q : Nat), p ≤ i → q ≤ j →
          ∀ (w1 w2 : Matrix) (x : Int) (w1' : Matrix),
          AgreeOn i j w1 w2 →
          optFuel add ord s t match_ mismatch gap fuel p q w1 = some (x, w1') →
          ∃ w2', optFuel add ord s t match_ mismatch gap fuel p q w2 = some (x, w2') ∧
            AgreeOn i j w1' w2' := by
        intro p q hp hq w1 w2 x w1' hw e
        obtain ⟨w2', e2, hag'⟩ := ih p q w1 w2 x w1' (agreeOn_mono hw hp hq) e
        exact ⟨w2', e2, agreeOn_of_writeOnce hw hag'
          (optFuel_writeOnce add ord s t match_ mismatch gap fuel p q w1 x w1' e).1
          (optFuel_writeOnce add ord s t match_ mismatch gap fuel p q w2 x w2' e2).1⟩
      have fin : ∀ (w1 w2 : Matrix) (val : Int), AgreeOn i j w1 w2 →
          ((w1.set i j val).bind fun y => (y.at_ i j).bind fun r => some (r, y))
            = some (v, m1') →
          ∃ m2', ((w2.set i j val).bind fun y => (y.at_ i j).bind fun r => some (r, y))
            = some (v, m2') ∧ AgreeOn i j m1' m2' := by
        intro w1 w2 val hw hb
        obtain ⟨y, hy, hb⟩ := Option.bind_eq_some.mp hb
        obtain ⟨r, hr, hb⟩ := Option.bind_eq_some.mp hb
        obtain ⟨rfl, rfl⟩ := Prod.mk.inj (Option.some.inj hb)
        obtain ⟨y2, hy2, hag2⟩ := agreeOn_set hw hy
        refine ⟨y2, ?_, hag2⟩
        rw [hy2, Option.some_bind, ← agreeOn_at hag2, hr, Option.some_bind]
      by_cases hinf : cur = INF
      · simp only [hinf, if_true] at h ⊢
        by_cases hi : i = 0
        · by_cases hj : j = 0
          · subst hi hj
            simp only [and_self, if_true] at h ⊢
            exact fin m1 m2 0 hag h
          · subst hi
            simp only [hj, and_false, if_false, if_true] at h ⊢
            obtain ⟨⟨v1, w1⟩, e1, h⟩ := Option.bind_eq_some.mp h
            obtain ⟨w2, e2, hw⟩ := sub 0 (j - 1) le_rfl (Nat.sub_le _ _) m1 m2 v1 w1 hag e1
            rw [e2, Option.some_bind]
            exact fin w1 w2 _ hw h
        · by_cases hj : j = 0
          · subst hj
            simp only [hi, false_and, if_false, if_true] at h ⊢
            obtain ⟨⟨v1, w1⟩, e1, h⟩ := Option.bind_eq_some.mp h
            obtain ⟨w2, e2, hw⟩ := sub (i - 1) 0 (Nat.sub_le _ _) le_rfl m1 m2 v1 w1 hag e1
            rw [e2, Option.some_bind]
            exact fin w1 w2 _ hw h
          · simp only [hi, hj, false_and, and_false, if_false] at h ⊢
            obtain ⟨x, hx, h⟩ := Option.bind_eq_some.mp h
            obtain ⟨y, hy, h⟩ := Option.bind_eq_some.mp h
            rw [hx, hy]
            simp only [Option.some_bind]
            have args : ∀ (v1 v2 v3 : Int) (w1 : Matrix),
                evalArgs ord (optFuel add ord s t match_ mismatch gap fuel (i - 1) j)
                  (optFuel add ord s t match_ mismatch gap fuel i (j - 1))
                  (optFuel add ord s t match_ mismatch gap fuel (i - 1) (j - 1)) m1
                  = some (v1, v2, v3, w1) →
                ∃ w2, evalArgs ord (optFuel add ord s t match_ mismatch gap fuel (i - 1) j)
                  (optFuel add ord s t match_ mismatch gap fuel i (j - 1))
                  (optFuel add ord s t match_ mismatch gap fuel (i - 1) (j - 1)) m2
                  = some (v1, v2, v3, w2) ∧ AgreeOn i j w1 w2 :=
              fun v1 v2 v3 w1 e =>
                evalArgs_sim (AgreeOn i j) ord _ _ _
                  (fun a1 a2 x a1' => sub (i - 1) j (Nat.sub_le _ _) le_rfl a1 a2 x a1')
                  (fun a1 a2 x a1' => sub i (j - 1) le_rfl (Nat.sub_le _ _) a1 a2 x a1')
                  (fun a1 a2 x a1' =>
                    sub (i - 1) (j - 1) (Nat.sub_le _ _) (Nat.sub_le _ _) a1 a2 x a1')
                  m1 m2 hag v1 v2 v3 w1 e
            split_ifs at h ⊢ with hxy
            · obtain ⟨⟨v1, v2, v3, w1⟩, e, h⟩ := Option.bind_eq_some.mp h
              obtain ⟨w2, e2, hw⟩ := args v1 v2 v3 w1 e
              rw [e2, Option.some_bind]
              exact fin w1 w2 _ hw h
            · obtain ⟨⟨v1, v2, v3, w1⟩, e, h⟩ := Option.bind_eq_some.mp h
              obtain ⟨w2, e2, hw⟩ := args v1 v2 v3 w1 e
              rw [e2, Option.some_bind]
              exact fin w1 w2 _ hw h
      · simp only [hinf, if_false, Option.some_bind, hcur] at h ⊢
        obtain ⟨rfl, rfl⟩ := Prod.mk.inj (Option.some.inj h)
        refine ⟨m2, ?_, hag⟩
        rw [← agreeOn_at hag, hcur, Option.some_bind]

end readsOnly

/-! ## The table prepared by `main` -/

section mainTable

theorem fillCols_spec (memo : Matrix) (row : Nat) (hrow : row < memo.rows) :
    ∀ k, k ≤ memo.cols →
      ∃ m', (List.range k).foldlM (fun m col => m.set row col INF) memo = some m' ∧
        m'.rows = memo.rows ∧ m'.cols = memo.cols ∧
        ∀ r c, m'.data r c = if r = row ∧ c < k then INF else memo.data r c := by
  intro k
  induction k with
  | zero => intro _; exact ⟨memo, rfl, rfl, rfl, fun r c => by simp⟩
  | succ k ih =>
    intro hk
    obtain ⟨m1, e1, hr1, hc1, hd1⟩ := ih (by omega)
    have hset := m1.set_of_lt INF (hr1 ▸ hrow) (show k < m1.cols by omega)
    refine ⟨{ m1 with data := fun r' c' => if r' = row ∧ c' = k then INF else m1.data r' c' },
      ?_, hr1, hc1, fun r c => ?_⟩
    · rw [List.range_succ, List.foldlM_append, e1]
      simp only [Option.bind_eq_bind, Option.some_bind, List.foldlM_cons, List.foldlM_nil,
        hset, Option.pure_def]
    · simp only [hd1]
      by_cases h1 : r = row ∧ c = k
      · obtain ⟨rfl, rfl⟩ := h1
        simp
      · by_cases h2 : r = row ∧ c < k
        · have h3 : r = row ∧ c < k + 1 := ⟨h2.1, by omega⟩
          simp [h1, h2, h3]
        · have h3 : ¬(r = row ∧ c < k + 1) := fun h => by
            rcases Nat.lt_succ_iff_lt_or_eq.mp h.2 with h' | h'
            · exact h2 ⟨h.1, h'⟩
            · exact h1 ⟨h.1, h'⟩
          simp [h1, h2, h3]

theorem fillRows_spec (memo : Matrix) (tsize : Nat) (ht : tsize < memo.cols) :
    ∀ k, k ≤ memo.rows →
      ∃ m', (List.range k).foldlM (fun m row => fillRow m row tsize) memo = some m' ∧
        m'.rows = memo.rows ∧ m'.cols = memo.cols ∧
        ∀ r c, m'.data r c = if r < k ∧ c ≤ tsize then INF else memo.data r c := by
  intro k
  induction k with
  | zero => intro _; exact ⟨memo, rfl, rfl, rfl, fun r c => by simp⟩
  | succ k ih =>
    intro hk
    obtain ⟨m1, e1, hr1, hc1, hd1⟩ := ih (by omega)
    obtain ⟨m2, e2, hr2, hc2, hd2⟩ := fillCols_spec m1 k (by omega) (tsize + 1) (by omega)
    refine ⟨m2, ?_, hr2.trans hr1, hc2.trans hc1, fun r c => ?_⟩
    · rw [List.range_succ, List.foldlM_append, e1]
      simp only [Option.bind_eq_bind, Option.some_bind, List.foldlM_cons, List.foldlM_nil,
        fillRow, e2, Option.pure_def]
    · rw [hd2, hd1]
      by_cases h1 : r = k ∧ c < tsize + 1
      · have h3 : r < k + 1 ∧ c ≤ tsize := ⟨by omega, by omega⟩
        simp [h1, h3]
      · by_cases h2 : r < k ∧ c ≤ tsize
        · have h3 : r < k + 1 ∧ c ≤ tsize := ⟨by omega, h2.2⟩
          simp [h1, h2, h3]
        · have h3 : ¬(r < k + 1 ∧ c ≤ tsize) := fun h => by
            rcases Nat.lt_succ_iff_lt_or_eq.mp h.1 with h' | h'
            · exact h2 ⟨h', h.2⟩
            · exact h1 ⟨h', by omega⟩
          simp [h1, h2, h3]

/-- The table that `main` prepares has `n + 2` rows and `m + 2` columns, `n`
and `m` being the lengths of the two input sequences, and all of its cells
hold the unset sentinel. -/
theorem mainMemo_spec (init : Nat → Nat → Int) (seq1 seq2 : List Char) :
    ∃ memo, mainMemo init seq1 seq2 = some memo ∧
      memo.rows = seq1.length + 2 ∧ memo.cols = seq2.length + 2 ∧ memo.Unset := by
  obtain ⟨m', e, hr, hc, hd⟩ := fillRows_spec
    (Matrix.new ((pad seq1).length + 1) ((pad seq2).length + 1) init) (pad seq2).length
    (by simp [Matrix.new]) ((pad seq1).length + 1) (by simp [Matrix.new])
  refine ⟨m', e, by simpa [Matrix.new, pad] using hr, by simpa [Matrix.new, pad] using hc, ?_⟩
  intro r hr' c hc'
  have h1 : r < (pad seq1).length + 1 := by
    rw [hr] at hr'
    exact hr'
  have h2 : c ≤ (pad seq2).length := by
    rw [hc] at hc'
    exact Nat.lt_succ_iff.mp hc'
  rw [hd, if_pos ⟨h1, h2⟩]

end mainTable

/-! ## The loop of `traceback`, step by step -/

section steps

variable (add : Int → Int → Int) (memo : Matrix) (gap : Int)

/-- The loop of `traceback` is its first iteration followed by the loop. -/
theorem tracebackLoop_succ (fuel : Nat) (sf tf : List Char) (i j : Nat) :
    tracebackLoop add memo gap (fuel + 1) sf tf i j =
      if i = 0 ∧ j = 0 then some (sf, tf)
      else (tracebackStep add memo gap sf tf i j).bind fun r =>
        tracebackLoop add memo gap fuel r.2.1 r.2.2.1 r.2.2.2.1 r.2.2.2.2 := by
  rw [tracebackLoop]
  by_cases h00 : i = 0 ∧ j = 0
  · simp [h00]
  · simp only [h00, if_false, tracebackStep, Option.bind_eq_bind, Option.pure_def]
    generalize memo.at_ (i - 1) j = o1
    generalize memo.at_ i j = o2
    generalize memo.at_ i (j - 1) = o3
    generalize strInsert tf (j + 1) '_' = s1
    generalize strInsert sf (i + 1) '_' = s2
    by_cases hi : i = 0 <;> by_cases hj : j = 0 <;>
      simp only [hi, hj, ne_eq, not_true_eq_false, not_false_eq_true, if_true, if_false,
        Option.some_bind, Bool.false_eq_true] <;>
      cases o1 <;> cases o2 <;> cases o3 <;> cases s1 <;> cases s2 <;>
      simp only [Option.none_bind, Option.some_bind] <;>
      split_ifs <;> rfl

/-- The loop of `traceback` with budget `fuel` is `fuel` iterations, followed
by the test that the origin has been reached. -/
theorem tracebackLoop_eq_iter : ∀ (fuel : Nat) (sf tf : List Char) (i j : Nat),
    tracebackLoop add memo gap fuel sf tf i j =
      (tracebackIter add memo gap fuel (sf, tf, i, j)).bind fun st =>
        if st.2.2.1 = 0 ∧ st.2.2.2 = 0 then some (st.1, st.2.1) else none := by
  intro fuel
  induction fuel with
  | zero =>
    intro sf tf i j
    rw [tracebackLoop]
    simp [tracebackIter]
  | succ fuel ih =>
    intro sf tf i j
    rw [tracebackLoop_succ, tracebackIter]
    by_cases h00 : i = 0 ∧ j = 0
    · simp [h00]
    · simp only [h00, if_false, Option.bind_assoc]
      congr 1
      funext r
      exact ih r.2.1 r.2.2.1 r.2.2.2.1 r.2.2.2.2

end steps

section stepsCompleted

variable (add : Int → Int → Int) (memo : Matrix) (gap : Int)

/-- One iteration of the loop at a cell inside the table, with strings long
enough for the insertions: the three branches in their priority order. -/
theorem tracebackStep_eq (sf tf : List Char) (i j : Nat)
    (hr : i < memo.rows) (hc : j < memo.cols)
    (hsf : i + 1 ≤ sf.length) (htf : j + 1 ≤ tf.length) :
    tracebackStep add memo gap sf tf i j =
      if i ≠ 0 ∧ add (memo.data (i - 1) j) gap = memo.data i j then
        some (Branch.up, sf, tf.take (j + 1) ++ '_' :: tf.drop (j + 1), i - 1, j)
      else if j ≠ 0 ∧ add (memo.data i (j - 1)) gap = memo.data i j then
        some (Branch.left, sf.take (i + 1) ++ '_' :: sf.drop (i + 1), tf, i, j - 1)
      else some (Branch.diag, sf, tf, sizeDec i, sizeDec j) := by
  have h1 : memo.at_ (i - 1) j = some (memo.data (i - 1) j) :=
    memo.at_of_lt (by omega) hc
  have h2 : memo.at_ i j = some (memo.data i j) := memo.at_of_lt hr hc
  have h3 : memo.at_ i (j - 1) = some (memo.data i (j - 1)) :=
    memo.at_of_lt hr (by omega)
  have h4 : strInsert tf (j + 1) '_' = some (tf.take (j + 1) ++ '_' :: tf.drop (j + 1)) := by
    simp [strInsert, htf]
  have h5 : strInsert sf (i + 1) '_' = some (sf.take (i + 1) ++ '_' :: sf.drop (i + 1)) := by
    simp [strInsert, hsf]
  simp only [tracebackStep, Option.bind_eq_bind, Option.pure_def, h1, h2, h3, h4, h5]
  by_cases hi : i = 0 <;> by_cases hj : j = 0 <;>
    simp only [hi, hj, ne_eq, not_true_eq_false, not_false_eq_true, if_true, if_false,
      Option.some_bind, Bool.false_eq_true, false_and, true_and, decide_eq_true_eq]

end stepsCompleted

section diagonal

variable (add : Int → Int → Int) (c d : Char) (a b : List Char) (match_ mismatch gap : Int)

/-- In the table of the code, a cell other than the origin that is reached
neither from above nor from the left is an inner cell reached from its
diagonal neighbour. -/
theorem Rg_diag_of_not_up_left (i j : Nat) (h00 : ¬(i = 0 ∧ j = 0))
    (hup : ¬(i ≠ 0 ∧ add (Rg add a b match_ mismatch gap (i - 1) j) gap =
      Rg add a b match_ mismatch gap i j))
    (hleft : ¬(j ≠ 0 ∧ add (Rg add a b match_ mismatch gap i (j - 1)) gap =
      Rg add a b match_ mismatch gap i j)) :
    0 < i ∧ 0 < j ∧
      Rg add a b match_ mismatch gap i j =
        add (Rg add a b match_ mismatch gap (i - 1) (j - 1))
          (if (c :: a)[i]? = (d :: b)[j]? then match_ else mismatch) := by
  have hi0 : i ≠ 0 := by
    rintro rfl
    have hj0 : j ≠ 0 := fun h => h00 ⟨rfl, h⟩
    obtain ⟨j, rfl⟩ : ∃ k, j = k + 1 := ⟨j - 1, by omega⟩
    exact hleft ⟨hj0, by rw [Nat.add_sub_cancel, Rg_zero_succ]⟩
  have hj0 : j ≠ 0 := by
    rintro rfl
    obtain ⟨i, rfl⟩ : ∃ k, i = k + 1 := ⟨i - 1, by omega⟩
    exact hup ⟨hi0, by rw [Nat.add_sub_cancel, Rg_succ_zero]⟩
  obtain ⟨i, rfl⟩ : ∃ k, i = k + 1 := ⟨i - 1, by omega⟩
  obtain ⟨j, rfl⟩ : ∃ k, j = k + 1 := ⟨j - 1, by omega⟩
  refine ⟨Nat.succ_pos _, Nat.succ_pos _, ?_⟩
  simp only [Nat.add_sub_cancel, ne_eq, Nat.succ_ne_zero, not_false_eq_true, true_and,
    List.getElem?_cons_succ] at hup hleft ⊢
  have hrec := Rg_succ_succ a b match_ mismatch gap add i j
  rcases max3_choice (add (Rg add a b match_ mismatch gap i (j + 1)) gap)
    (add (Rg add a b match_ mismatch gap (i + 1) j) gap)
    (add (Rg add a b match_ mismatch gap i j)
      (if a[i]? = b[j]? then match_ else mismatch)) with h | h | h
  · rw [h] at hrec; exact absurd hrec.symm hup
  · rw [h] at hrec; exact absurd hrec.symm hleft
  · rw [hrec, h]

end diagonal

section iterations

variable (add : Int → Int → Int) (a b : List Char) (match_ mismatch gap : Int)

/-- Once the origin is reached, further iterations change nothing. -/
theorem tracebackIter_stable (memo : Matrix) : ∀ (k : Nat)
    (st : List Char × List Char × Nat × Nat) (sf tf : List Char),
    tracebackIter add memo gap k st = some (sf, tf, 0, 0) →
    tracebackIter add memo gap (k + 1) st = some (sf, tf, 0, 0) := by
  intro k
  induction k with
  | zero =>
    intro st sf tf h
    simp only [tracebackIter, Option.some.injEq] at h
    subst h
    simp [tracebackIter]
  | succ k ih =>
    intro st sf tf h
    obtain ⟨sf0, tf0, i, j⟩ := st
    rw [tracebackIter] at h ⊢
    by_cases h00 : i = 0 ∧ j = 0
    · rw [if_pos h00] at h ⊢
      exact h
    · rw [if_neg h00] at h ⊢
      obtain ⟨r, hr, h⟩ := Option.bind_eq_some.mp h
      rw [hr, Option.some_bind]
      exact ih r.2 sf tf h

/-- On a completed table every iteration of the loop succeeds, stays inside
the rectangle and, until the origin is reached, lowers `i + j`. -/
theorem tracebackIter_completed (memo : Matrix)
    (hfull : FullBelow (Rg add a b match_ mismatch gap) memo a.length b.length)
    (hr : a.length < memo.rows) (hc : b.length < memo.cols) :
    ∀ (k : Nat) (sf tf : List Char) (i j : Nat), i ≤ a.length → j ≤ b.length →
      i + 1 ≤ sf.length → j + 1 ≤ tf.length →
      ∃ sf' tf' i' j', tracebackIter add memo gap k (sf, tf, i, j) = some (sf', tf', i', j') ∧
        i' ≤ i ∧ j' ≤ j ∧ i' + 1 ≤ sf'.length ∧ j' + 1 ≤ tf'.length ∧
        ((i' = 0 ∧ j' = 0) ∨ i' + j' + k ≤ i + j) := by
  intro k
  induction k with
  | zero =>
    intro sf tf i j hi hj hsf htf
    exact ⟨sf, tf, i, j, rfl, le_rfl, le_rfl, hsf, htf, Or.inr (by omega)⟩
  | succ k ih =>
    intro sf tf i j hi hj hsf htf
    rw [tracebackIter]
    by_cases h00 : i = 0 ∧ j = 0
    · rw [if_pos h00]
      exact ⟨sf, tf, i, j, rfl, le_rfl, le_rfl, hsf, htf, Or.inl h00⟩
    · rw [if_neg h00, tracebackStep_eq add memo gap sf tf i j (by omega) (by omega) hsf htf]
      have next : ∀ (br : Branch) (sf1 tf1 : List Char) (i1 j1 : Nat), i1 ≤ i → j1 ≤ j →
          i1 + j1 < i + j → i1 + 1 ≤ sf1.length → j1 + 1 ≤ tf1.length →
          ∃ sf' tf' i' j',
            ((some (br, sf1, tf1, i1, j1) :
                Option (Branch × List Char × List Char × Nat × Nat)).bind
              fun r => tracebackIter add memo gap k r.2) = some (sf', tf', i', j') ∧
            i' ≤ i ∧ j' ≤ j ∧ i' + 1 ≤ sf'.length ∧ j' + 1 ≤ tf'.length ∧
            ((i' = 0 ∧ j' = 0) ∨ i' + j' + (k + 1) ≤ i + j) := by
        intro br sf1 tf1 i1 j1 h1 h2 h3 h4 h5
        obtain ⟨sf', tf', i', j', e, a1, a2, a3, a4, a5⟩ :=
          ih sf1 tf1 i1 j1 (by omega) (by omega) h4 h5
        refine ⟨sf', tf', i', j', e, by omega, by omega, a3, a4, ?_⟩
        rcases a5 with a5 | a5
        · exact Or.inl a5
        · exact Or.inr (by omega)
      by_cases hup : i ≠ 0 ∧ add (memo.data (i - 1) j) gap = memo.data i j
      · rw [if_pos hup]
        exact next _ _ _ _ _ (Nat.sub_le _ _) le_rfl (by omega) (by omega)
          (by simp only [List.length_append, List.length_cons, List.length_take,
            List.length_drop]; omega)
      · rw [if_neg hup]
        by_cases hleft : j ≠ 0 ∧ add (memo.data i (j - 1)) gap = memo.data i j
        · rw [if_pos hleft]
          exact next _ _ _ _ _ le_rfl (Nat.sub_le _ _) (by omega)
            (by simp only [List.length_append, List.length_cons, List.length_take,
              List.length_drop]; omega) (by omega)
        · rw [if_neg hleft]
          have hup' : ¬(i ≠ 0 ∧ add (Rg add a b match_ mismatch gap (i - 1) j) gap =
              Rg add a b match_ mismatch gap i j) := by
            rw [← hfull (i - 1) (by omega) j hj, ← hfull i hi j hj]
            exact hup
          have hleft' : ¬(j ≠ 0 ∧ add (Rg add a b match_ mismatch gap i (j - 1)) gap =
              Rg add a b match_ mismatch gap i j) := by
            rw [← hfull i hi (j - 1) (by omega), ← hfull i hi j hj]
            exact hleft
          obtain ⟨hi0, hj0, _⟩ :=
            Rg_diag_of_not_up_left add ' ' ' ' a b match_ mismatch gap i j h00 hup' hleft'
          have e1 : sizeDec i = i - 1 := by simp [sizeDec, Nat.pos_iff_ne_zero.mp hi0]
          have e2 : sizeDec j = j - 1 := by simp [sizeDec, Nat.pos_iff_ne_zero.mp hj0]
          rw [e1, e2]
          exact next _ _ _ _ _ (Nat.sub_le _ _) (Nat.sub_le _ _) (by omega) (by omega)
            (by omega)

end iterations

/-! ## The claims -/

/-- Claim C1: for all sequences `a` (length `n`) and `b` (length `m`) and all
integer scores, under exact arithmetic, `opt` called on the padded strings at
the terminal cell `(n, m)` with a table whose cells are all unset returns
`R n m`, where `R` is the reference recurrence: `R 0 0 = 0`,
`R 0 (j+1) = R 0 j + gap`, `R (i+1) 0 = R i 0 + gap`, and `R (i+1) (j+1)` is
the maximum of `R i (j+1) + gap`, `R (i+1) j + gap` and `R i j` plus `match_`
or `mismatch` according to whether the characters are equal. -/
theorem opt_fresh_eq_recurrence (ord : ArgOrder) (a b : List Char)
    (match_ mismatch gap : Int) (memo : Matrix)
    (hfresh : memo.Unset) (hr : a.length < memo.rows) (hc : b.length < memo.cols) :
    (opt ord (pad a) a.length (pad b) b.length memo match_ mismatch gap).map Prod.fst
        = some (R a b match_ mismatch gap a.length b.length) ∧
      R a b match_ mismatch gap 0 0 = 0 ∧
      (∀ j, R a b match_ mismatch gap 0 (j + 1) = R a b match_ mismatch gap 0 j + gap) ∧
      (∀ i, R a b match_ mismatch gap (i + 1) 0 = R a b match_ mismatch gap i 0 + gap) ∧
      (∀ i j, R a b match_ mismatch gap (i + 1) (j + 1) =
        max (R a b match_ mismatch gap i (j + 1) + gap)
          (max (R a b match_ mismatch gap (i + 1) j + gap)
            (R a b match_ mismatch gap i j +
              (if a[i]? = b[j]? then match_ else mismatch)))) := by
  obtain ⟨memo', h, _⟩ := opt_exact ord ' ' ' ' a b match_ mismatch gap a.length b.length memo
    le_rfl le_rfl hr hc (closed_of_unset _ hfresh)
  refine ⟨?_, R_zero_zero _ _ _ _ _, R_zero_succ _ _ _ _ _, R_succ_zero _ _ _ _ _,
    R_succ_succ _ _ _ _ _⟩
  rw [pad, pad, h]; rfl

/-- Witness of C1 on `"GA"` against `"A"` with the table that `main`
allocates. -/
theorem opt_fresh_eq_recurrence_witness :
    (opt .o321 (pad "GA".toList) 2 (pad "A".toList) 1 (Matrix.fill 4 3 INF) 1 (-1) (-2)).map
        Prod.fst
      = some (R "GA".toList "A".toList 1 (-1) (-2) 2 1) :=
  (opt_fresh_eq_recurrence .o321 "GA".toList "A".toList 1 (-1) (-2) (Matrix.fill 4 3 INF)
    (fun _ _ _ _ => rfl) (by decide) (by decide)).1

/-- Claim C2: the score returned by `opt` (fresh table, terminal cell, exact
arithmetic) is the optimal global alignment score: some alignment of `a` and
`b` (a list of columns whose non-gap projections are exactly `a` and `b`)
attains it and no alignment exceeds it. -/
theorem opt_is_optimal_score (ord : ArgOrder) (a b : List Char)
    (match_ mismatch gap : Int) (memo : Matrix)
    (hfresh : memo.Unset) (hr : a.length < memo.rows) (hc : b.length < memo.cols) :
    ∃ v, (opt ord (pad a) a.length (pad b) b.length memo match_ mismatch gap).map Prod.fst
        = some v ∧
      (∃ al, proj1 al = a ∧ proj2 al = b ∧ alScore match_ mismatch gap al = v) ∧
      (∀ al, proj1 al = a → proj2 al = b → alScore match_ mismatch gap al ≤ v) := by
  obtain ⟨memo', al, h, _, h1, h2, h3, _⟩ :=
    pipeline_exact ord ' ' ' ' a b match_ mismatch gap memo hfresh hr hc
  refine ⟨_, by rw [pad, pad, h]; rfl, ⟨al, h1, h2, h3⟩, ?_⟩
  intro al' h1' h2'
  have := alScore_le_R match_ mismatch gap al'
  rw [h1', h2'] at this
  exact this

/-- Witness of C2 on `"GA"` against `"A"`. -/
theorem opt_is_optimal_score_witness :
    ∃ v, (opt .o321 (pad "GA".toList) 2 (pad "A".toList) 1 (Matrix.fill 4 3 INF) 1 (-1) (-2)).map
        Prod.fst = some v ∧
      (∃ al, proj1 al = "GA".toList ∧ proj2 al = "A".toList ∧ alScore 1 (-1) (-2) al = v) ∧
      (∀ al, proj1 al = "GA".toList → proj2 al = "A".toList → alScore 1 (-1) (-2) al ≤ v) :=
  opt_is_optimal_score .o321 "GA".toList "A".toList 1 (-1) (-2) (Matrix.fill 4 3 INF)
    (fun _ _ _ _ => rfl) (by decide) (by decide)

/-- Claim C3: for `a`, `b` without the gap marker `_` and all scores (exact
arithmetic), the pair `(sf, tf)` produced by `traceback` on the table
completed by `opt` has two rows of equal length and re-scores, column by
column from index 1, to the value that `opt` returned for the terminal
cell. -/
theorem traceback_rescores_to_score (ord : ArgOrder) (a b : List Char) (match_ mismatch gap : Int)
    (memo : Matrix) (ha : '_' ∉ a) (hb : '_' ∉ b)
    (hfresh : memo.Unset) (hr : a.length < memo.rows) (hc : b.length < memo.cols) :
    ∃ v memo' sf tf,
      opt ord (pad a) a.length (pad b) b.length memo match_ mismatch gap = some (v, memo') ∧
      traceback memo' (pad a) (pad b) gap = some (sf, tf) ∧
      sf.length = tf.length ∧
      rescore match_ mismatch gap sf tf = v := by
  obtain ⟨memo', al, h, _, h1, h2, h3, h4⟩ :=
    pipeline_exact ord ' ' ' ' a b match_ mismatch gap memo hfresh hr hc
  refine ⟨_, memo', _, _, h, h4, ?_, ?_⟩
  · simp only [List.length_cons, render1_length, render2_length]
  · rw [rescore_render match_ mismatch gap al (h1 ▸ ha) (h2 ▸ hb), h3]

/-- Witness of C3 on `"GA"` against `"A"`. -/
theorem traceback_rescores_to_score_witness :
    ∃ v memo' sf tf,
      opt .o321 (pad "GA".toList) 2 (pad "A".toList) 1 (Matrix.fill 4 3 INF) 1 (-1) (-2)
        = some (v, memo') ∧
      traceback memo' (pad "GA".toList) (pad "A".toList) (-2) = some (sf, tf) ∧
      sf.length = tf.length ∧
      rescore 1 (-1) (-2) sf tf = v :=
  traceback_rescores_to_score .o321 "GA".toList "A".toList 1 (-1) (-2) (Matrix.fill 4 3 INF)
    (by decide) (by decide) (fun _ _ _ _ => rfl) (by decide) (by decide)

/-- Claim C4: for every `s`, `t` passed to `traceback` together with the
table completed by `opt` for them (whatever the machine addition `add` does),
the outputs are the inputs with only gap markers inserted (`Gapped`): the
characters of `s` resp. `t` appear in their order and every other character
is an inserted `_`; for inputs without `_`, erasing all `_` from `sf` and
`tf` gives exactly `s` and `t`. -/
theorem traceback_only_inserts_gaps (add : Int → Int → Int) (ord : ArgOrder) (s t : List Char)
    (match_ mismatch gap : Int) (memo : Matrix) (hs : s ≠ []) (ht : t ≠ [])
    (hfresh : memo.Unset) (hr : s.length - 1 < memo.rows) (hc : t.length - 1 < memo.cols) :
    ∃ v memo' sf tf,
      optWith add ord s (s.length - 1) t (t.length - 1) memo match_ mismatch gap
        = some (v, memo') ∧
      tracebackWith add memo' s t gap = some (sf, tf) ∧
      Gapped s sf ∧ Gapped t tf ∧
      ('_' ∉ s → sf.filter (fun x => x != '_') = s) ∧
      ('_' ∉ t → tf.filter (fun x => x != '_') = t) := by
  obtain ⟨c, a, rfl⟩ := List.exists_cons_of_ne_nil hs
  obtain ⟨d, b, rfl⟩ := List.exists_cons_of_ne_nil ht
  simp only [List.length_cons, Nat.add_sub_cancel] at hr hc ⊢
  obtain ⟨memo', al, h, _, h1, h2, _, h4⟩ :=
    pipeline_spec add ord c d a b match_ mismatch gap memo hfresh hr hc
  have g1 : Gapped (c :: a) (c :: render1 al) := Gapped.keep c (h1 ▸ gapped_render1 al)
  have g2 : Gapped (d :: b) (d :: render2 al) := Gapped.keep d (h2 ▸ gapped_render2 al)
  exact ⟨_, memo', _, _, h, h4, g1, g2, g1.filter_eq, g2.filter_eq⟩

/-- Witness of C4 on the padded strings of `"GA"` and `"A"`, with 32-bit
wrapping addition. -/
theorem traceback_only_inserts_gaps_witness :
    ∃ v memo' sf tf,
      optWith add32 .o321 " GA".toList (" GA".toList.length - 1) " A".toList
        (" A".toList.length - 1)
        (Matrix.fill 4 3 INF) 1 (-1) (-2) = some (v, memo') ∧
      tracebackWith add32 memo' " GA".toList " A".toList (-2) = some (sf, tf) ∧
      Gapped " GA".toList sf ∧ Gapped " A".toList tf ∧
      ('_' ∉ " GA".toList → sf.filter (fun x => x != '_') = " GA".toList) ∧
      ('_' ∉ " A".toList → tf.filter (fun x => x != '_') = " A".toList) :=
  traceback_only_inserts_gaps add32 .o321 " GA".toList " A".toList 1 (-1) (-2) (Matrix.fill 4 3 INF)
    (by decide) (by decide) (fun _ _ _ _ => rfl) (by decide) (by decide)

/-- Claim C5: for every `s`, `t` and scores, with the table completed by
`opt` (whatever the machine addition `add` does), the two sequences returned
by `traceback` have equal length, and that length is at most
`len(s) + len(t)`, `s` and `t` being the sequences given to `traceback`
(it is even at most `len(s) + len(t) - 1`). -/
theorem traceback_lengths (add : Int → Int → Int) (ord : ArgOrder) (s t : List Char)
    (match_ mismatch gap : Int) (memo : Matrix) (hs : s ≠ []) (ht : t ≠ [])
    (hfresh : memo.Unset) (hr : s.length - 1 < memo.rows) (hc : t.length - 1 < memo.cols) :
    ∃ v memo' sf tf,
      optWith add ord s (s.length - 1) t (t.length - 1) memo match_ mismatch gap
        = some (v, memo') ∧
      tracebackWith add memo' s t gap = some (sf, tf) ∧
      sf.length = tf.length ∧ sf.length ≤ s.length + t.length ∧
      sf.length + 1 ≤ s.length + t.length := by
  obtain ⟨c, a, rfl⟩ := List.exists_cons_of_ne_nil hs
  obtain ⟨d, b, rfl⟩ := List.exists_cons_of_ne_nil ht
  simp only [List.length_cons, Nat.add_sub_cancel] at hr hc ⊢
  obtain ⟨memo', al, h, _, h1, h2, _, h4⟩ :=
    pipeline_spec add ord c d a b match_ mismatch gap memo hfresh hr hc
  have hlen := length_le_proj al
  rw [h1, h2] at hlen
  refine ⟨_, memo', _, _, h, h4, ?_, ?_, ?_⟩
  · simp only [List.length_cons, render1_length, render2_length]
  · simp only [List.length_cons, render1_length]
    omega
  · simp only [List.length_cons, render1_length]
    omega

/-- Witness of C5 on the padded strings of `"GA"` and `"A"`. -/
theorem traceback_lengths_witness :
    ∃ v memo' sf tf,
      optWith addZ .o321 " GA".toList (" GA".toList.length - 1) " A".toList
        (" A".toList.length - 1)
        (Matrix.fill 4 3 INF) 1 (-1) (-2) = some (v, memo') ∧
      tracebackWith addZ memo' " GA".toList " A".toList (-2) = some (sf, tf) ∧
      sf.length = tf.length ∧ sf.length ≤ " GA".toList.length + " A".toList.length ∧
      sf.length + 1 ≤ " GA".toList.length + " A".toList.length :=
  traceback_lengths addZ .o321 " GA".toList " A".toList 1 (-1) (-2) (Matrix.fill 4 3 INF)
    (by decide) (by decide) (fun _ _ _ _ => rfl) (by decide) (by decide)

/-- Claim C6: base row and column.  After `opt` is run from a fresh table at
the terminal cell `(n, m)` (exact arithmetic), cell `(i, 0)` holds `i * gap`
for every `i <= n` and cell `(0, j)` holds `j * gap` for every `j <= m`, cell
`(0, 0)` holds 0, and `opt` queried at `(i, 0)` or `(0, j)`, on the fresh
table as well as on the completed one, returns `i * gap` resp. `j * gap`. -/
theorem base_row_and_column (ord : ArgOrder) (a b : List Char)
    (match_ mismatch gap : Int) (memo : Matrix)
    (hfresh : memo.Unset) (hr : a.length < memo.rows) (hc : b.length < memo.cols) :
    ∃ v memo',
      opt ord (pad a) a.length (pad b) b.length memo match_ mismatch gap = some (v, memo') ∧
      (∀ i, i ≤ a.length → memo'.at_ i 0 = some (i * gap)) ∧
      (∀ j, j ≤ b.length → memo'.at_ 0 j = some (j * gap)) ∧
      memo'.at_ 0 0 = some 0 ∧
      (∀ i, i ≤ a.length →
        (opt ord (pad a) i (pad b) 0 memo match_ mismatch gap).map Prod.fst = some (i * gap) ∧
        (opt ord (pad a) i (pad b) 0 memo' match_ mismatch gap).map Prod.fst = some (i * gap)) ∧
      (∀ j, j ≤ b.length →
        (opt ord (pad a) 0 (pad b) j memo match_ mismatch gap).map Prod.fst = some (j * gap) ∧
        (opt ord (pad a) 0 (pad b) j memo' match_ mismatch gap).map Prod.fst = some (j * gap)) := by
  have hcl := closed_of_unset (R a b match_ mismatch gap) hfresh
  obtain ⟨memo', h, hp⟩ := opt_exact ord ' ' ' ' a b match_ mismatch gap a.length b.length memo
    le_rfl le_rfl hr hc hcl
  have hcl' := closed_of_post _ hcl hp
  have hr' : a.length < memo'.rows := hp.1.1 ▸ hr
  have hc' : b.length < memo'.cols := hp.1.2.1 ▸ hc
  have hat : ∀ i j, i ≤ a.length → j ≤ b.length →
      memo'.at_ i j = some (R a b match_ mismatch gap i j) := by
    intro i j hi hj
    rw [memo'.at_of_lt (by omega) (by omega), hp.2 i hi j hj]
  have hq : ∀ (w : Matrix), Closed (R a b match_ mismatch gap) w → a.length < w.rows →
      b.length < w.cols → ∀ i j, i ≤ a.length → j ≤ b.length →
      (opt ord (pad a) i (pad b) j w match_ mismatch gap).map Prod.fst
        = some (R a b match_ mismatch gap i j) := by
    intro w hw hwr hwc i j hi hj
    obtain ⟨w', h', _⟩ := opt_exact ord ' ' ' ' a b match_ mismatch gap i j w hi hj
      (by omega) (by omega) hw
    rw [pad, pad, h']; rfl
  refine ⟨_, memo', h, ?_, ?_, ?_, ?_, ?_⟩
  · intro i hi
    rw [hat i 0 hi (Nat.zero_le _), R_col_zero]
  · intro j hj
    rw [hat 0 j (Nat.zero_le _) hj, R_row_zero]
  · rw [hat 0 0 (Nat.zero_le _) (Nat.zero_le _), R_zero_zero]
  · intro i hi
    rw [hq memo hcl hr hc i 0 hi (Nat.zero_le _), hq memo' hcl' hr' hc' i 0 hi (Nat.zero_le _),
      R_col_zero]
    exact ⟨rfl, rfl⟩
  · intro j hj
    rw [hq memo hcl hr hc 0 j (Nat.zero_le _) hj, hq memo' hcl' hr' hc' 0 j (Nat.zero_le _) hj,
      R_row_zero]
    exact ⟨rfl, rfl⟩

/-- Witness of C6 on `"GA"` against `"A"` with gap penalty `-2`. -/
theorem base_row_and_column_witness :
    ∃ v memo',
      opt .o321 (pad "GA".toList) 2 (pad "A".toList) 1 (Matrix.fill 4 3 INF) 1 (-1) (-2)
        = some (v, memo') ∧
      memo'.at_ 2 0 = some (-4) ∧ memo'.at_ 0 1 = some (-2) ∧ memo'.at_ 0 0 = some 0 := by
  obtain ⟨v, memo', h, h1, h2, h3, _⟩ :=
    base_row_and_column .o321 "GA".toList "A".toList 1 (-1) (-2) (Matrix.fill 4 3 INF)
      (fun _ _ _ _ => rfl) (by decide) (by decide)
  exact ⟨v, memo', h, h1 2 (by decide), h2 1 (by decide), h3⟩

/-- Claim C7: symmetry.  For all sequences `a`, `b` and all scores (exact
arithmetic), the score `opt` returns for `(a, b)` from a fresh table equals
the score it returns for `(b, a)` from a fresh table. -/
theorem opt_symmetric (ord1 ord2 : ArgOrder) (a b : List Char)
    (match_ mismatch gap : Int) (memo1 memo2 : Matrix)
    (h1 : memo1.Unset) (hr1 : a.length < memo1.rows) (hc1 : b.length < memo1.cols)
    (h2 : memo2.Unset) (hr2 : b.length < memo2.rows) (hc2 : a.length < memo2.cols) :
    ∃ v,
      (opt ord1 (pad a) a.length (pad b) b.length memo1 match_ mismatch gap).map Prod.fst
        = some v ∧
      (opt ord2 (pad b) b.length (pad a) a.length memo2 match_ mismatch gap).map Prod.fst
        = some v := by
  obtain ⟨m1, e1, _⟩ := opt_exact ord1 ' ' ' ' a b match_ mismatch gap a.length b.length memo1
    le_rfl le_rfl hr1 hc1 (closed_of_unset _ h1)
  obtain ⟨m2, e2, _⟩ := opt_exact ord2 ' ' ' ' b a match_ mismatch gap b.length a.length memo2
    le_rfl le_rfl hr2 hc2 (closed_of_unset _ h2)
  refine ⟨R a b match_ mismatch gap a.length b.length, by rw [pad, pad, e1]; rfl, ?_⟩
  rw [pad, pad, e2, R_swap]; rfl

/-- Witness of C7 on `"GA"` and `"A"`. -/
theorem opt_symmetric_witness :
    ∃ v,
      (opt .o321 (pad "GA".toList) 2 (pad "A".toList) 1 (Matrix.fill 4 3 INF) 1 (-1) (-2)).map
        Prod.fst = some v ∧
      (opt .o123 (pad "A".toList) 1 (pad "GA".toList) 2 (Matrix.fill 3 4 INF) 1 (-1) (-2)).map
        Prod.fst = some v :=
  opt_symmetric .o321 .o123 "GA".toList "A".toList 1 (-1) (-2) (Matrix.fill 4 3 INF)
    (Matrix.fill 3 4 INF)
    (fun _ _ _ _ => rfl) (by decide) (by decide) (fun _ _ _ _ => rfl) (by decide) (by decide)

/-- Claim C8: monotonicity in the match reward.  For all sequences, all
`mismatch` and `gap`, and all `match_ <= match'` (exact arithmetic), the
score `opt` returns with reward `match_` is at most the score it returns with
reward `match'`, each from a fresh table. -/
theorem opt_mono_match (ord1 ord2 : ArgOrder) (a b : List Char) (match_ match' mismatch gap : Int)
    (memo1 memo2 : Matrix) (hle : match_ ≤ match')
    (h1 : memo1.Unset) (hr1 : a.length < memo1.rows) (hc1 : b.length < memo1.cols)
    (h2 : memo2.Unset) (hr2 : a.length < memo2.rows) (hc2 : b.length < memo2.cols) :
    ∃ v v',
      (opt ord1 (pad a) a.length (pad b) b.length memo1 match_ mismatch gap).map Prod.fst
        = some v ∧
      (opt ord2 (pad a) a.length (pad b) b.length memo2 match' mismatch gap).map Prod.fst
        = some v' ∧
      v ≤ v' := by
  obtain ⟨m1, e1, _⟩ := opt_exact ord1 ' ' ' ' a b match_ mismatch gap a.length b.length memo1
    le_rfl le_rfl hr1 hc1 (closed_of_unset _ h1)
  obtain ⟨m2, e2, _⟩ := opt_exact ord2 ' ' ' ' a b match' mismatch gap a.length b.length memo2
    le_rfl le_rfl hr2 hc2 (closed_of_unset _ h2)
  exact ⟨_, _, by rw [pad, pad, e1]; rfl, by rw [pad, pad, e2]; rfl,
    R_mono_match a b match_ mismatch gap match' hle _ _⟩

/-- Witness of C8 on `"GA"` and `"A"`, raising the match reward from 1
to 3. -/
theorem opt_mono_match_witness :
    ∃ v v',
      (opt .o321 (pad "GA".toList) 2 (pad "A".toList) 1 (Matrix.fill 4 3 INF) 1 (-1) (-2)).map
        Prod.fst = some v ∧
      (opt .o321 (pad "GA".toList) 2 (pad "A".toList) 1 (Matrix.fill 4 3 INF) 3 (-1) (-2)).map
        Prod.fst = some v' ∧
      v ≤ v' :=
  opt_mono_match .o321 .o321 "GA".toList "A".toList 1 3 (-1) (-2) (Matrix.fill 4 3 INF)
    (Matrix.fill 4 3 INF) (by decide)
    (fun _ _ _ _ => rfl) (by decide) (by decide) (fun _ _ _ _ => rfl) (by decide) (by decide)

/-- Counterexample to C9: `A = "AA"` with `match = 1500000000` and
`mismatch = gap = -1` meets the conditions of the claim (`gap < 0`,
`match > mismatch >= 2 * gap`, all three scores 32-bit values), but the
addition `cell (1,1) + match` leaves the 32-bit range, and under wrapping
arithmetic `opt` returns 1499999998 for every evaluation order, not
`length(A) * match = 3000000000`. -/
theorem identical_score_wraps :
    ((-1 : Int) < 0 ∧ (-1 : Int) < 1500000000 ∧ 2 * (-1 : Int) ≤ -1) ∧
    (InRange32 1500000000 ∧ InRange32 (-1)) ∧
    ¬ InRange32 (R "AA".toList "AA".toList 1500000000 (-1) (-1) 1 1 + 1500000000) ∧
    (∀ ord : ArgOrder,
      (opt32 ord (pad "AA".toList) 2 (pad "AA".toList) 2 (Matrix.fill 4 4 INF) 1500000000
        (-1) (-1)).map Prod.fst = some 1499999998) ∧
    (1499999998 : Int) ≠ ("AA".toList.length : Int) * 1500000000 := by
  refine ⟨by decide, ⟨by unfold InRange32; decide, by unfold InRange32; decide⟩, ?_, ?_,
    by decide⟩
  · simp [R, InRange32]
  · intro ord
    cases ord <;> decide

/-- Claim C9 as amended: identical sequences.  For every sequence `A` and all
scores with `gap < 0` and `match_ > mismatch >= 2 * gap`, `opt` on `(A, A)`
from a fresh table returns `length(A) * match_` under exact arithmetic, and
also under 32-bit wrapping arithmetic whenever no addition
`cell + gap / match / mismatch` leaves the 32-bit signed range. -/
theorem opt_identical (ord : ArgOrder) (A : List Char) (match_ mismatch gap : Int) (memo : Matrix)
    (_hgap : gap < 0) (hm : mismatch < match_) (hg : 2 * gap ≤ mismatch)
    (hfresh : memo.Unset) (hr : A.length < memo.rows) (hc : A.length < memo.cols) :
    (opt ord (pad A) A.length (pad A) A.length memo match_ mismatch gap).map Prod.fst
      = some ((A.length : Int) * match_) ∧
    (NoOverflow A A match_ mismatch gap A.length A.length →
      (opt32 ord (pad A) A.length (pad A) A.length memo match_ mismatch gap).map Prod.fst
        = some ((A.length : Int) * match_)) := by
  have hR := R_identical A match_ mismatch gap (le_of_lt hm) (by linarith)
  constructor
  · obtain ⟨m1, e1, _⟩ := opt_exact ord ' ' ' ' A A match_ mismatch gap A.length A.length memo
      le_rfl le_rfl hr hc (closed_of_unset _ hfresh)
    rw [pad, e1, hR]
    rfl
  · intro hno
    obtain ⟨m1, e1, _⟩ := opt_spec add32 ord ' ' ' ' A A match_ mismatch gap A.length A.length
      memo le_rfl le_rfl hr hc (closed_of_unset _ hfresh)
    rw [opt32, pad, e1, Rg_add32_eq A A match_ mismatch gap _ _ hno _ le_rfl _ le_rfl, hR]
    rfl

/-- Witness of the amended C9, the concrete case of the claim: `A = "AT"`,
`match = 1`, `mismatch = -1`, `gap = -2` gives 2, under exact and, as nothing
overflows, under 32-bit wrapping arithmetic. -/
theorem opt_identical_witness :
    (opt .o321 (pad "AT".toList) 2 (pad "AT".toList) 2 (Matrix.fill 4 4 INF) 1 (-1) (-2)).map
      Prod.fst = some 2 ∧
    (opt32 .o321 (pad "AT".toList) 2 (pad "AT".toList) 2 (Matrix.fill 4 4 INF) 1 (-1)
      (-2)).map Prod.fst = some 2 := by
  obtain ⟨h1, h2⟩ := opt_identical .o321 "AT".toList 1 (-1) (-2) (Matrix.fill 4 4 INF)
    (by decide) (by decide) (by decide) (fun _ _ _ _ => rfl) (by decide) (by decide)
  exact ⟨h1, h2 (noOverflow_of_bound "AT".toList "AT".toList 1 (-1) (-2) 2
    (by decide) (by decide) (by decide) 2 2 (by decide))⟩

/-- Claim C10: degenerate case.  When one sequence is empty and the other is
`b` of length `m`, for all scores (exact arithmetic) `opt` returns `m * gap`
and `traceback` returns the non-empty sequence unchanged (the padded `b`)
paired with the placeholder followed by exactly `m` gap markers, whichever of
the two arguments is the empty one; when both are empty the score is 0 and
both outputs are the bare placeholder. -/
theorem degenerate_empty (ord : ArgOrder) (b : List Char)
    (match_ mismatch gap : Int) (memo1 memo2 : Matrix)
    (h1 : memo1.Unset) (hr1 : 0 < memo1.rows) (hc1 : b.length < memo1.cols)
    (h2 : memo2.Unset) (hr2 : b.length < memo2.rows) (hc2 : 0 < memo2.cols) :
    (∃ memo',
      opt ord (pad []) 0 (pad b) b.length memo1 match_ mismatch gap
        = some ((b.length : Int) * gap, memo') ∧
      traceback memo' (pad []) (pad b) gap
        = some (pad (List.replicate b.length '_'), pad b)) ∧
    (∃ memo',
      opt ord (pad b) b.length (pad []) 0 memo2 match_ mismatch gap
        = some ((b.length : Int) * gap, memo') ∧
      traceback memo' (pad b) (pad []) gap
        = some (pad b, pad (List.replicate b.length '_'))) ∧
    (∃ memo',
      opt ord (pad []) 0 (pad []) 0 memo1 match_ mismatch gap = some (0, memo') ∧
      traceback memo' (pad []) (pad []) gap = some (pad [], pad [])) := by
  refine ⟨?_, ?_, ?_⟩
  · obtain ⟨memo', al, h, _, p1, p2, _, h4⟩ :=
      pipeline_exact ord ' ' ' ' [] b match_ mismatch gap memo1 h1 hr1 hc1
    obtain ⟨e1, e2⟩ := render_of_proj1_nil al p1
    rw [List.length_nil, R_row_zero] at h
    rw [e1, e2, p2] at h4
    exact ⟨memo', h, h4⟩
  · obtain ⟨memo', al, h, _, p1, p2, _, h4⟩ :=
      pipeline_exact ord ' ' ' ' b [] match_ mismatch gap memo2 h2 hr2 hc2
    obtain ⟨e1, e2⟩ := render_of_proj2_nil al p2
    rw [List.length_nil, R_col_zero] at h
    rw [e1, e2, p1] at h4
    exact ⟨memo', h, h4⟩
  · obtain ⟨memo', al, h, _, p1, p2, _, h4⟩ :=
      pipeline_exact ord ' ' ' ' [] [] match_ mismatch gap memo1 h1 hr1 (by
        simp only [List.length_nil]; omega)
    obtain ⟨e1, e2⟩ := render_of_proj1_nil al p1
    rw [List.length_nil, R_zero_zero] at h
    rw [e1, e2, p2] at h4
    exact ⟨memo', h, h4⟩

/-- Witness of C10 with `b = "GAT"` and the tables that `main` allocates. -/
theorem degenerate_empty_witness :
    (∃ memo',
      opt .o321 (pad []) 0 (pad "GAT".toList) 3 (Matrix.fill 2 5 INF) 1 (-1) (-2)
        = some (-6, memo') ∧
      traceback memo' (pad []) (pad "GAT".toList) (-2)
        = some (" ___".toList, " GAT".toList)) ∧
    (∃ memo',
      opt .o321 (pad "GAT".toList) 3 (pad []) 0 (Matrix.fill 5 2 INF) 1 (-1) (-2)
        = some (-6, memo') ∧
      traceback memo' (pad "GAT".toList) (pad []) (-2)
        = some (" GAT".toList, " ___".toList)) ∧
    (∃ memo',
      opt .o321 (pad []) 0 (pad []) 0 (Matrix.fill 2 5 INF) 1 (-1) (-2) = some (0, memo') ∧
      traceback memo' (pad []) (pad []) (-2) = some (" ".toList, " ".toList)) :=
  degenerate_empty .o321 "GAT".toList 1 (-1) (-2) (Matrix.fill 2 5 INF) (Matrix.fill 5 2 INF)
    (fun _ _ _ _ => rfl) (by decide) (by decide) (fun _ _ _ _ => rfl) (by decide) (by decide)

/-- Claim C11: the concrete end-to-end scenario.  For `seq1 = "GCATGCU"`,
`seq2 = "GATTACA"`, `match = 1`, `mismatch = -1`, `gap = -1`, `opt` from a
fresh table at the terminal cell `(7, 7)` returns 0, and re-scoring the pair
printed by `traceback` column by column (index 0 skipped) gives 0. -/
theorem scenario_score_zero (ord : ArgOrder) (memo : Matrix)
    (hfresh : memo.Unset) (hr : 7 < memo.rows) (hc : 7 < memo.cols) :
    ∃ memo' sf tf,
      opt ord (pad "GCATGCU".toList) 7 (pad "GATTACA".toList) 7 memo 1 (-1) (-1)
        = some (0, memo') ∧
      traceback memo' (pad "GCATGCU".toList) (pad "GATTACA".toList) (-1) = some (sf, tf) ∧
      sf.length = tf.length ∧
      rescore 1 (-1) (-1) sf tf = 0 := by
  obtain ⟨memo', al, h, _, h1, h2, h3, h4⟩ :=
    pipeline_exact ord ' ' ' ' "GCATGCU".toList "GATTACA".toList 1 (-1) (-1) memo hfresh hr hc
  have hR : R "GCATGCU".toList "GATTACA".toList 1 (-1) (-1)
      "GCATGCU".toList.length "GATTACA".toList.length = 0 := R_scenario
  rw [hR] at h h3
  refine ⟨memo', _, _, h, h4, ?_, ?_⟩
  · simp only [List.length_cons, render1_length, render2_length]
  · rw [rescore_render 1 (-1) (-1) al (h1 ▸ (by decide)) (h2 ▸ (by decide)), h3]

/-- Witness of C11 with the table that `main` allocates; evaluation gives the
printed pair `" GCATG_CU"` over `" G_ATTACA"`. -/
theorem scenario_score_zero_witness :
    (∃ memo' sf tf,
      opt .o321 (pad "GCATGCU".toList) 7 (pad "GATTACA".toList) 7 (Matrix.fill 9 9 INF)
        1 (-1) (-1) = some (0, memo') ∧
      traceback memo' (pad "GCATGCU".toList) (pad "GATTACA".toList) (-1) = some (sf, tf) ∧
      sf.length = tf.length ∧
      rescore 1 (-1) (-1) sf tf = 0) ∧
    ((opt .o321 (pad "GCATGCU".toList) 7 (pad "GATTACA".toList) 7 (Matrix.fill 9 9 INF)
        1 (-1) (-1)).bind fun r =>
      traceback r.2 (pad "GCATGCU".toList) (pad "GATTACA".toList) (-1))
      = some (" GCATG_CU".toList, " G_ATTACA".toList) :=
  ⟨scenario_score_zero .o321 (Matrix.fill 9 9 INF) (fun _ _ _ _ => rfl) (by decide)
      (by decide),
    by set_option maxRecDepth 100000 in decide⟩

/-- Claim C20: for every pair of inputs without `_` and the table completed by
`opt` for them (whatever the machine addition `add` does), the pair
`(sf, tf)` returned by `traceback` never has a gap marker in both sequences
at the same position, and index 0 of both outputs is still the placeholder
character. -/
theorem traceback_no_double_gap (add : Int → Int → Int) (ord : ArgOrder) (a b : List Char)
    (match_ mismatch gap : Int) (memo : Matrix) (ha : '_' ∉ a) (hb : '_' ∉ b)
    (hfresh : memo.Unset) (hr : a.length < memo.rows) (hc : b.length < memo.cols) :
    ∃ v memo' sf tf,
      optWith add ord (pad a) a.length (pad b) b.length memo match_ mismatch gap
        = some (v, memo') ∧
      tracebackWith add memo' (pad a) (pad b) gap = some (sf, tf) ∧
      (∀ k : Nat, ¬(sf[k]? = some '_' ∧ tf[k]? = some '_')) ∧
      sf[0]? = some ' ' ∧ tf[0]? = some ' ' := by
  obtain ⟨memo', al, h, _, h1, h2, _, h4⟩ :=
    pipeline_spec add ord ' ' ' ' a b match_ mismatch gap memo hfresh hr hc
  refine ⟨_, memo', _, _, h, h4, ?_, List.getElem?_cons_zero, List.getElem?_cons_zero⟩
  intro k
  cases k with
  | zero =>
    intro hk
    simp only [List.getElem?_cons_zero, Option.some.injEq] at hk
    exact absurd hk.1 (by decide)
  | succ k =>
    simpa using render_no_double_gap al (h1 ▸ ha) (h2 ▸ hb) k

/-- Witness of C20 on `"GA"` against `"A"`, with 32-bit wrapping addition. -/
theorem traceback_no_double_gap_witness :
    ∃ v memo' sf tf,
      optWith add32 .o321 (pad "GA".toList) 2 (pad "A".toList) 1 (Matrix.fill 4 3 INF)
        1 (-1) (-2) = some (v, memo') ∧
      tracebackWith add32 memo' (pad "GA".toList) (pad "A".toList) (-2) = some (sf, tf) ∧
      (∀ k : Nat, ¬(sf[k]? = some '_' ∧ tf[k]? = some '_')) ∧
      sf[0]? = some ' ' ∧ tf[0]? = some ' ' :=
  traceback_no_double_gap add32 .o321 "GA".toList "A".toList 1 (-1) (-2) (Matrix.fill 4 3 INF)
    (by decide) (by decide) (fun _ _ _ _ => rfl) (by decide) (by decide)

/-- Claim C12: full population.  After `opt` is called at the terminal cell
`(n, m)` on a table whose cells are all unset (exact arithmetic, and no
recurrence value equal to the sentinel), every cell `(i, j)` with `i <= n` and
`j <= m` is resolved (not the sentinel) and holds the recurrence value
`R i j`, so the precondition of `traceback` holds for the whole rectangle. -/
theorem opt_fills_rectangle (ord : ArgOrder) (a b : List Char) (match_ mismatch gap : Int)
    (memo : Matrix) (hfresh : memo.Unset)
    (hr : a.length < memo.rows) (hc : b.length < memo.cols)
    (hno : ∀ i, i ≤ a.length → ∀ j, j ≤ b.length →
      R a b match_ mismatch gap i j ≠ INF) :
    ∃ v memo',
      opt ord (pad a) a.length (pad b) b.length memo match_ mismatch gap = some (v, memo') ∧
      ∀ i, i ≤ a.length → ∀ j, j ≤ b.length →
        memo'.at_ i j = some (R a b match_ mismatch gap i j) ∧ memo'.data i j ≠ INF := by
  obtain ⟨memo', h, hp⟩ := opt_exact ord ' ' ' ' a b match_ mismatch gap a.length b.length memo
    le_rfl le_rfl hr hc (closed_of_unset _ hfresh)
  refine ⟨_, memo', h, fun i hi j hj => ?_⟩
  have hr' : a.length < memo'.rows := hp.1.1 ▸ hr
  have hc' : b.length < memo'.cols := hp.1.2.1 ▸ hc
  rw [memo'.at_of_lt (by omega) (by omega), hp.2 i hi j hj]
  exact ⟨rfl, hno i hi j hj⟩

/-- Witness of C12 on `"GA"` against `"A"` with scores 1, -1, -2. -/
theorem opt_fills_rectangle_witness :
    ∃ v memo',
      opt .o321 (pad "GA".toList) 2 (pad "A".toList) 1 (Matrix.fill 4 3 INF) 1 (-1) (-2)
        = some (v, memo') ∧
      ∀ i, i ≤ 2 → ∀ j, j ≤ 1 →
        memo'.at_ i j = some (R "GA".toList "A".toList 1 (-1) (-2) i j) ∧
          memo'.data i j ≠ INF :=
  opt_fills_rectangle .o321 "GA".toList "A".toList 1 (-1) (-2) (Matrix.fill 4 3 INF)
    (fun _ _ _ _ => rfl) (by decide) (by decide)
    (R_ne_INF_of_bound "GA".toList "A".toList 1 (-1) (-2) 2 (by decide) (by decide)
      (by decide) 2 1 (by decide))

/-- Counterexample to C14: with `gap = INT_MIN`, an empty first sequence and
`"AA"` as second, the addition `cell (0,1) + gap` leaves the 32-bit range
(its exact value is `-2^32`), and `opt` under wrapping arithmetic reports no
failure: it returns the wrapped value 0 as the score. -/
theorem overflow_not_detected :
    InRange32 (-2147483648) ∧
    ¬ InRange32 (R [] "AA".toList 1 (-1) (-2147483648) 0 1 + (-2147483648)) ∧
    (opt32 .o123 (pad []) 0 (pad "AA".toList) 2 (Matrix.fill 2 4 INF) 1 (-1)
      (-2147483648)).map Prod.fst = some 0 := by
  refine ⟨by unfold InRange32; decide, ?_, by decide⟩
  rw [R_zero_succ, R_zero_zero]
  unfold InRange32
  decide

/-- Claim C14 as amended: `opt` has no failure path for arithmetic.  For
every input and fresh table, `opt` under 32-bit wrapping addition returns a
value, the recurrence evaluated with wrapping additions; this value is the
exact score `R n m` whenever no addition `cell + gap / match / mismatch`
leaves the 32-bit signed range. -/
theorem opt32_returns_wrapped_recurrence (ord : ArgOrder) (a b : List Char)
    (match_ mismatch gap : Int) (memo : Matrix) (hfresh : memo.Unset)
    (hr : a.length < memo.rows) (hc : b.length < memo.cols) :
    (opt32 ord (pad a) a.length (pad b) b.length memo match_ mismatch gap).map Prod.fst
      = some (Rg add32 a b match_ mismatch gap a.length b.length) ∧
    (NoOverflow a b match_ mismatch gap a.length b.length →
      Rg add32 a b match_ mismatch gap a.length b.length =
        R a b match_ mismatch gap a.length b.length) := by
  obtain ⟨memo', h, _⟩ := opt_spec add32 ord ' ' ' ' a b match_ mismatch gap a.length b.length
    memo le_rfl le_rfl hr hc (closed_of_unset _ hfresh)
  refine ⟨?_, fun hno => Rg_add32_eq a b match_ mismatch gap _ _ hno _ le_rfl _ le_rfl⟩
  rw [opt32, pad, pad, h]; rfl

/-- Witness of the amended C14 on `"GA"` against `"A"` with scores 1, -1,
-2, where nothing overflows. -/
theorem opt32_returns_wrapped_recurrence_witness :
    (opt32 .o321 (pad "GA".toList) 2 (pad "A".toList) 1 (Matrix.fill 4 3 INF) 1 (-1)
      (-2)).map Prod.fst = some (R "GA".toList "A".toList 1 (-1) (-2) 2 1) := by
  obtain ⟨h1, h2⟩ := opt32_returns_wrapped_recurrence .o321 "GA".toList "A".toList 1 (-1) (-2)
    (Matrix.fill 4 3 INF) (fun _ _ _ _ => rfl) (by decide) (by decide)
  exact h1.trans (congrArg some (h2 (noOverflow_of_bound "GA".toList "A".toList 1 (-1) (-2) 2
    (by decide) (by decide) (by decide) 2 1 (by decide))))

/-- Counterexample to C15: `match = INT_MAX` is a 32-bit signed value that
the program accepts; for `seq1 = seq2 = "A"` with `mismatch = gap = -1` no
addition overflows, and the cell `(1, 1)`, which is also the returned score,
equals the sentinel `INF = INT_MAX`. -/
theorem sentinel_is_attained :
    InRange32 2147483647 ∧ InRange32 (-1) ∧
    NoOverflow "A".toList "A".toList 2147483647 (-1) (-1) 1 1 ∧
    R "A".toList "A".toList 2147483647 (-1) (-1) 1 1 = INF ∧
    (opt .o123 (pad "A".toList) 1 (pad "A".toList) 1 (Matrix.fill 3 3 INF) 2147483647 (-1)
      (-1)).map Prod.fst = some INF ∧
    (opt32 .o123 (pad "A".toList) 1 (pad "A".toList) 1 (Matrix.fill 3 3 INF) 2147483647 (-1)
      (-1)).map Prod.fst = some INF := by
  refine ⟨by unfold InRange32; decide, by unfold InRange32; decide, ?_, ?_, by decide,
    by decide⟩
  · intro i hi j hj
    have hi' : i = 0 ∨ i = 1 := by omega
    have hj' : j = 0 ∨ j = 1 := by omega
    rcases hi' with rfl | rfl <;> rcases hj' with rfl | rfl <;>
      simp [R, InRange32]
  · simp [R, INF]

/-- Claim C15 as amended: the sentinel is not an attainable score when the
scores are small against the lengths.  For all sequences and all scores with
`|match|, |mismatch|, |gap| <= K` and `(n + m) * K < INT_MAX`, no addition
overflows and no cell value computed by the recurrence, in particular not the
returned score, equals `INT_MAX`; so a resolved cell is never mistaken for an
unset one.  This holds for exact and for 32-bit wrapping arithmetic. -/
theorem sentinel_not_attained_of_bound (ord : ArgOrder) (a b : List Char)
    (match_ mismatch gap K : Int) (memo : Matrix)
    (hm : |match_| ≤ K) (hx : |mismatch| ≤ K) (hg : |gap| ≤ K)
    (hK : ((a.length : Int) + b.length) * K < INF)
    (hfresh : memo.Unset) (hr : a.length < memo.rows) (hc : b.length < memo.cols) :
    NoOverflow a b match_ mismatch gap a.length b.length ∧
    (∀ i, i ≤ a.length → ∀ j, j ≤ b.length → R a b match_ mismatch gap i j ≠ INF) ∧
    (∃ v memo',
      opt ord (pad a) a.length (pad b) b.length memo match_ mismatch gap = some (v, memo') ∧
      v ≠ INF ∧
      ∀ i, i ≤ a.length → ∀ j, j ≤ b.length →
        memo'.at_ i j = some (R a b match_ mismatch gap i j) ∧ memo'.data i j ≠ INF) ∧
    (∃ v memo',
      opt32 ord (pad a) a.length (pad b) b.length memo match_ mismatch gap
        = some (v, memo') ∧
      v ≠ INF ∧
      ∀ i, i ≤ a.length → ∀ j, j ≤ b.length →
        memo'.at_ i j = some (R a b match_ mismatch gap i j) ∧ memo'.data i j ≠ INF) := by
  have hno := noOverflow_of_bound a b match_ mismatch gap K hm hx hg a.length b.length hK
  have hne := R_ne_INF_of_bound a b match_ mismatch gap K hm hx hg a.length b.length hK
  have h32 := Rg_add32_eq a b match_ mismatch gap a.length b.length hno
  refine ⟨hno, hne, ?_, ?_⟩
  · obtain ⟨memo', h, hp⟩ := opt_exact ord ' ' ' ' a b match_ mismatch gap a.length b.length
      memo le_rfl le_rfl hr hc (closed_of_unset _ hfresh)
    refine ⟨_, memo', h, hne _ le_rfl _ le_rfl, fun i hi j hj => ?_⟩
    have hr' : a.length < memo'.rows := hp.1.1 ▸ hr
    have hc' : b.length < memo'.cols := hp.1.2.1 ▸ hc
    rw [memo'.at_of_lt (by omega) (by omega), hp.2 i hi j hj]
    exact ⟨rfl, hne i hi j hj⟩
  · obtain ⟨memo', h, hp⟩ := opt_spec add32 ord ' ' ' ' a b match_ mismatch gap a.length
      b.length memo le_rfl le_rfl hr hc (closed_of_unset _ hfresh)
    rw [h32 _ le_rfl _ le_rfl] at h
    refine ⟨_, memo', h, hne _ le_rfl _ le_rfl, fun i hi j hj => ?_⟩
    have hr' : a.length < memo'.rows := hp.1.1 ▸ hr
    have hc' : b.length < memo'.cols := hp.1.2.1 ▸ hc
    rw [memo'.at_of_lt (by omega) (by omega), hp.2 i hi j hj, h32 i hi j hj]
    exact ⟨rfl, hne i hi j hj⟩

/-- Witness of the amended C15 on `"GA"` against `"A"` with scores 1, -1, -2
and `K = 2`. -/
theorem sentinel_not_attained_of_bound_witness :
    ∃ v memo',
      opt32 .o321 (pad "GA".toList) 2 (pad "A".toList) 1 (Matrix.fill 4 3 INF) 1 (-1) (-2)
        = some (v, memo') ∧
      v ≠ INF ∧
      ∀ i, i ≤ 2 → ∀ j, j ≤ 1 →
        memo'.at_ i j = some (R "GA".toList "A".toList 1 (-1) (-2) i j) ∧
          memo'.data i j ≠ INF :=
  (sentinel_not_attained_of_bound .o321 "GA".toList "A".toList 1 (-1) (-2) 2
    (Matrix.fill 4 3 INF) (by decide) (by decide) (by decide) (by decide)
    (fun _ _ _ _ => rfl) (by decide) (by decide)).2.2.2

/-- Claim C13: write-once memoization.  For every table state and every query
`(i, j)` (whatever the machine addition and the evaluation order), a call of
`opt` that returns keeps the size of the table and leaves every cell that was
already resolved (different from the sentinel) unchanged; when the queried
cell itself is already resolved, `opt` returns its stored value and leaves the
entire table unchanged; and a query inside the table and the strings always
returns. -/
theorem opt_write_once (add : Int → Int → Int) (ord : ArgOrder) (s t : List Char)
    (match_ mismatch gap : Int) (i j : Nat) (memo : Matrix) :
    (∀ v memo', optWith add ord s i t j memo match_ mismatch gap = some (v, memo') →
      memo'.rows = memo.rows ∧ memo'.cols = memo.cols ∧
      ∀ r c, memo.data r c ≠ INF → memo'.data r c = memo.data r c) ∧
    (∀ x, memo.at_ i j = some x → x ≠ INF →
      optWith add ord s i t j memo match_ mismatch gap = some (x, memo)) ∧
    (i ≤ s.length → j ≤ t.length → i < memo.rows → j < memo.cols →
      ∃ v memo', optWith add ord s i t j memo match_ mismatch gap = some (v, memo')) := by
  refine ⟨fun v memo' h => ?_, fun x hx hne => ?_, fun hi hj hr hc => ?_⟩
  · have hw := (optFuel_writeOnce add ord s t match_ mismatch gap _ i j memo v memo' h).1
    refine ⟨hw.1, hw.2.1, fun r c hne => ?_⟩
    rcases hw.2.2 r c with e | ⟨_, _, _, _, e⟩
    · exact e
    · exact absurd e hne
  · rw [optWith, optFuel]
    simp [hx, hne]
  · exact optFuel_total add ord s t match_ mismatch gap _ i j memo (Nat.lt_succ_self _)
      hi hj hr hc

/-- Witness of C13: on a 3 x 3 table whose only resolved cell `(0, 1)` holds
42, the query `(1, 1)` for `" A"`, `" B"` returns and leaves that cell at 42,
and the query `(0, 1)` returns 42 and leaves the table as it is. -/
theorem opt_write_once_witness :
    (∃ v memo',
      optWith addZ .o123 " A".toList 1 " B".toList 1
        (Matrix.new 3 3 fun r c => if r = 0 ∧ c = 1 then 42 else INF) 1 (-1) (-2)
        = some (v, memo') ∧
      memo'.data 0 1 = 42) ∧
    optWith addZ .o123 " A".toList 0 " B".toList 1
      (Matrix.new 3 3 fun r c => if r = 0 ∧ c = 1 then 42 else INF) 1 (-1) (-2)
      = some (42, Matrix.new 3 3 fun r c => if r = 0 ∧ c = 1 then 42 else INF) := by
  have h := opt_write_once addZ .o123 " A".toList " B".toList 1 (-1) (-2) 1 1
    (Matrix.new 3 3 fun r c => if r = 0 ∧ c = 1 then 42 else INF)
  have h' := opt_write_once addZ .o123 " A".toList " B".toList 1 (-1) (-2) 0 1
    (Matrix.new 3 3 fun r c => if r = 0 ∧ c = 1 then 42 else INF)
  obtain ⟨v, memo', e⟩ := h.2.2 (by decide) (by decide) (by decide) (by decide)
  exact ⟨⟨v, memo', e, ((h.1 v memo' e).2.2 0 1 (by decide)).trans (by decide)⟩,
    h'.2.1 42 (by decide) (by decide)⟩

/-- Evaluation of the code for claim C18: the table that `main` allocates for
input sequences of lengths `n` and `m` has `n + 2` rows and `m + 2` columns
(the strings are padded before `Matrix<int> memo(s.size() + 1, t.size() + 1)`
is constructed), not `n + 1` and `m + 1`; all of its cells hold the unset
sentinel before `opt` is called.  For `seq1 = "A"`, `seq2 = "B"` it is
3 x 3. -/
theorem main_table_size :
    (∀ (init : Nat → Nat → Int) (seq1 seq2 : List Char),
      ∃ memo, mainMemo init seq1 seq2 = some memo ∧
        memo.rows = seq1.length + 2 ∧ memo.cols = seq2.length + 2 ∧
        memo.rows ≠ seq1.length + 1 ∧ memo.cols ≠ seq2.length + 1 ∧ memo.Unset) ∧
    (mainMemo (fun _ _ => 0) "A".toList "B".toList).map (fun m => (m.rows, m.cols))
      = some (3, 3) := by
  refine ⟨fun init seq1 seq2 => ?_, by decide⟩
  obtain ⟨memo, e, hr, hc, hu⟩ := mainMemo_spec init seq1 seq2
  exact ⟨memo, e, hr, hc, by omega, by omega, hu⟩

/-- Claim C19: the frame of `opt`.  For every table state and every query
`(i, j)` (whatever the machine addition and the evaluation order): a call that
returns keeps the size of the table and every cell `(r, c)` with `r > i` or
`c > j`; the call reads only the cells with `r <= i` and `c <= j`, that is, on
a second table of the same size that agrees there it returns the same value
and leaves tables that agree there; a query inside the table and the strings
always returns; and on the table that `main` prepares the spare last row and
last column are still unset after the top-level call. -/
theorem opt_frame (add : Int → Int → Int) (ord : ArgOrder) (s t : List Char)
    (match_ mismatch gap : Int) (i j : Nat) (memo : Matrix) :
    (∀ v memo', optWith add ord s i t j memo match_ mismatch gap = some (v, memo') →
      memo'.rows = memo.rows ∧ memo'.cols = memo.cols ∧
      ∀ r c, (i < r ∨ j < c) → memo'.data r c = memo.data r c) ∧
    (∀ memo2 v memo', AgreeOn i j memo memo2 →
      optWith add ord s i t j memo match_ mismatch gap = some (v, memo') →
      ∃ memo2', optWith add ord s i t j memo2 match_ mismatch gap = some (v, memo2') ∧
        AgreeOn i j memo' memo2') ∧
    (i ≤ s.length → j ≤ t.length → i < memo.rows → j < memo.cols →
      ∃ v memo', optWith add ord s i t j memo match_ mismatch gap = some (v, memo')) ∧
    (∀ (init : Nat → Nat → Int) (seq1 seq2 : List Char),
      ∃ memo0 v memo', mainMemo init seq1 seq2 = some memo0 ∧
        optWith add ord (pad seq1) seq1.length (pad seq2) seq2.length memo0
          match_ mismatch gap = some (v, memo') ∧
        (∀ c, c < seq2.length + 2 → memo'.at_ (seq1.length + 1) c = some INF) ∧
        (∀ r, r < seq1.length + 2 → memo'.at_ r (seq2.length + 1) = some INF)) := by
  have frame : ∀ (p q : Nat) (w : Matrix) (v : Int) (w' : Matrix) (u : List Char)
      (u' : List Char), optWith add ord u p u' q w match_ mismatch gap = some (v, w') →
      w'.rows = w.rows ∧ w'.cols = w.cols ∧
      ∀ r c, (p < r ∨ q < c) → w'.data r c = w.data r c := by
    intro p q w v w' u u' h
    have hw := (optFuel_writeOnce add ord u u' match_ mismatch gap _ p q w v w' h).1
    refine ⟨hw.1, hw.2.1, fun r c hout => ?_⟩
    rcases hw.2.2 r c with e | ⟨a1, a2, _⟩
    · exact e
    · omega
  refine ⟨fun v memo' h => frame i j memo v memo' s t h, fun memo2 v memo' hag h => ?_,
    fun hi hj hr hc => ?_, fun init seq1 seq2 => ?_⟩
  · exact optFuel_agree add ord s t match_ mismatch gap _ i j memo memo2 v memo' hag h
  · exact optFuel_total add ord s t match_ mismatch gap _ i j memo (Nat.lt_succ_self _)
      hi hj hr hc
  · obtain ⟨memo0, e0, hr0, hc0, hu0⟩ := mainMemo_spec init seq1 seq2
    obtain ⟨v, memo', e⟩ := optFuel_total add ord (pad seq1) (pad seq2) match_ mismatch gap
      (seq1.length + seq2.length + 1) seq1.length seq2.length memo0 (Nat.lt_succ_self _)
      (by simp [pad]) (by simp [pad]) (by omega) (by omega)
    obtain ⟨hr', hc', hout⟩ := frame seq1.length seq2.length memo0 v memo' _ _ e
    refine ⟨memo0, v, memo', e0, e, fun c hc => ?_, fun r hr => ?_⟩
    · rw [memo'.at_of_lt (by omega) (by omega), hout _ c (Or.inl (Nat.lt_succ_self _)),
        hu0 _ (by omega) c (by omega)]
    · rw [memo'.at_of_lt (by omega) (by omega), hout r _ (Or.inr (Nat.lt_succ_self _)),
        hu0 r (by omega) _ (by omega)]

/-- Witness of C19: two 3 x 3 tables that differ only in the cell `(2, 2)`
outside the rectangle of the query `(1, 1)` give the same value, and the call
on the first leaves its cell `(2, 2)` at 7. -/
theorem opt_frame_witness :
    ∃ v memo' memo2',
      optWith addZ .o321 " A".toList 1 " B".toList 1
        (Matrix.new 3 3 fun r c => if r = 2 ∧ c = 2 then 7 else INF) 1 (-1) (-2)
        = some (v, memo') ∧
      optWith addZ .o321 " A".toList 1 " B".toList 1 (Matrix.fill 3 3 INF) 1 (-1) (-2)
        = some (v, memo2') ∧
      memo'.data 2 2 = 7 := by
  have h := opt_frame addZ .o321 " A".toList " B".toList 1 (-1) (-2) 1 1
    (Matrix.new 3 3 fun r c => if r = 2 ∧ c = 2 then 7 else INF)
  obtain ⟨v, memo', e⟩ := h.2.2.1 (by decide) (by decide) (by decide) (by decide)
  obtain ⟨memo2', e2, _⟩ := h.2.1 (Matrix.fill 3 3 INF) v memo'
    ⟨rfl, rfl, fun r hr c hc => by
      have h1 : ¬(r = 2 ∧ c = 2) := by omega
      simp [Matrix.new, Matrix.fill, h1]⟩ e
  exact ⟨v, memo', memo2', e, e2, ((h.1 v memo' e).2.2 2 2 (Or.inl (by decide))).trans
    (by decide)⟩

/-- Claim C16: the tie-break priority of `traceback`.  On the table completed
by `opt` (whatever the machine addition), one iteration of the loop from a
cell `(i, j)` other than the origin does the following.  If `i > 0` and
`table(i-1, j) + gap = table(i, j)`, it inserts `_` into the aligned `seq2`
right after index `j` and moves to `(i-1, j)`, whatever the other two
candidates are.  Otherwise, if `j > 0` and `table(i, j-1) + gap = table(i, j)`,
it inserts `_` into the aligned `seq1` right after index `i` and moves to
`(i, j-1)`, whatever the diagonal candidate is.  Otherwise it moves to
`(i-1, j-1)` with no insertion.  The loop continues from the state that the
iteration produced. -/
theorem traceback_tie_break (add : Int → Int → Int) (ord : ArgOrder) (a b : List Char)
    (match_ mismatch gap : Int) (memo : Matrix) (hfresh : memo.Unset)
    (hr : a.length < memo.rows) (hc : b.length < memo.cols) :
    ∃ v memo',
      optWith add ord (pad a) a.length (pad b) b.length memo match_ mismatch gap
        = some (v, memo') ∧
      (∀ i, i ≤ a.length → ∀ j, j ≤ b.length →
        memo'.data i j = Rg add a b match_ mismatch gap i j) ∧
      ∀ (i j : Nat) (sf tf : List Char), i ≤ a.length → j ≤ b.length →
        ¬(i = 0 ∧ j = 0) →
        i + 1 ≤ sf.length → j + 1 ≤ tf.length →
        ((0 < i ∧ add (memo'.data (i - 1) j) gap = memo'.data i j) →
          tracebackStep add memo' gap sf tf i j =
            some (Branch.up, sf, tf.take (j + 1) ++ '_' :: tf.drop (j + 1), i - 1, j)) ∧
        (¬(0 < i ∧ add (memo'.data (i - 1) j) gap = memo'.data i j) →
          (0 < j ∧ add (memo'.data i (j - 1)) gap = memo'.data i j) →
          tracebackStep add memo' gap sf tf i j =
            some (Branch.left, sf.take (i + 1) ++ '_' :: sf.drop (i + 1), tf, i, j - 1)) ∧
        (¬(0 < i ∧ add (memo'.data (i - 1) j) gap = memo'.data i j) →
          ¬(0 < j ∧ add (memo'.data i (j - 1)) gap = memo'.data i j) →
          tracebackStep add memo' gap sf tf i j = some (Branch.diag, sf, tf, i - 1, j - 1)) ∧
        ∀ fuel, tracebackLoop add memo' gap (fuel + 1) sf tf i j =
          (tracebackStep add memo' gap sf tf i j).bind fun r =>
            tracebackLoop add memo' gap fuel r.2.1 r.2.2.1 r.2.2.2.1 r.2.2.2.2 := by
  obtain ⟨memo', h, hp⟩ := opt_spec add ord ' ' ' ' a b match_ mismatch gap a.length b.length
    memo le_rfl le_rfl hr hc (closed_of_unset _ hfresh)
  have hr' : a.length < memo'.rows := hp.1.1 ▸ hr
  have hc' : b.length < memo'.cols := hp.1.2.1 ▸ hc
  refine ⟨_, memo', h, hp.2, fun i j sf tf hi hj h00 hsf htf => ?_⟩
  have hstep := tracebackStep_eq add memo' gap sf tf i j (by omega) (by omega) hsf htf
  have pos : ∀ k : Nat, (k ≠ 0) ↔ (0 < k) := fun k => Nat.pos_iff_ne_zero.symm
  simp only [pos] at hstep
  refine ⟨fun hup => ?_, fun hup hleft => ?_, fun hup hleft => ?_, fun fuel => ?_⟩
  · rw [hstep, if_pos hup]
  · rw [hstep, if_neg hup, if_pos hleft]
  · rw [hstep, if_neg hup, if_neg hleft]
    have hup' : ¬(i ≠ 0 ∧ add (Rg add a b match_ mismatch gap (i - 1) j) gap =
        Rg add a b match_ mismatch gap i j) := by
      rw [← hp.2 (i - 1) (by omega) j hj, ← hp.2 i hi j hj, pos]
      exact hup
    have hleft' : ¬(j ≠ 0 ∧ add (Rg add a b match_ mismatch gap i (j - 1)) gap =
        Rg add a b match_ mismatch gap i j) := by
      rw [← hp.2 i hi (j - 1) (by omega), ← hp.2 i hi j hj, pos]
      exact hleft
    obtain ⟨hi0, hj0, _⟩ :=
      Rg_diag_of_not_up_left add ' ' ' ' a b match_ mismatch gap i j h00 hup' hleft'
    have e1 : sizeDec i = i - 1 := by simp [sizeDec, Nat.pos_iff_ne_zero.mp hi0]
    have e2 : sizeDec j = j - 1 := by simp [sizeDec, Nat.pos_iff_ne_zero.mp hj0]
    rw [e1, e2]
  · rw [tracebackLoop_succ, if_neg h00]

/-- Witness of C16, the three-way tie of the claim: `seq1 = "A"`,
`seq2 = "B"`, `match = 1`, `mismatch = -2`, `gap = -1`.  At the cell `(1, 1)`
the upper, the left and the diagonal candidate all attain the value of the
cell; the first iteration takes the upper branch, the second the left one, and
the program prints `" _A"` over `" B_"`. -/
theorem traceback_tie_break_witness :
    (∃ v memo',
      optWith addZ .o321 (pad "A".toList) 1 (pad "B".toList) 1 (Matrix.fill 3 3 INF)
        1 (-2) (-1) = some (v, memo') ∧
      addZ (memo'.data 0 1) (-1) = memo'.data 1 1 ∧
      addZ (memo'.data 1 0) (-1) = memo'.data 1 1 ∧
      addZ (memo'.data 0 0) (-2) = memo'.data 1 1 ∧
      tracebackStep addZ memo' (-1) " A".toList " B".toList 1 1
        = some (Branch.up, " A".toList, " B_".toList, 0, 1) ∧
      tracebackStep addZ memo' (-1) " A".toList " B_".toList 0 1
        = some (Branch.left, " _A".toList, " B_".toList, 0, 0)) ∧
    ((opt .o321 (pad "A".toList) 1 (pad "B".toList) 1 (Matrix.fill 3 3 INF) 1 (-2) (-1)).bind
      fun r => traceback r.2 (pad "A".toList) (pad "B".toList) (-1))
      = some (" _A".toList, " B_".toList) := by
  refine ⟨?_, by decide⟩
  obtain ⟨v, memo', h, hval, hstep⟩ := traceback_tie_break addZ .o321 "A".toList "B".toList
    1 (-2) (-1) (Matrix.fill 3 3 INF) (fun _ _ _ _ => rfl) (by decide) (by decide)
  have v00 : memo'.data 0 0 = 0 := by
    rw [hval 0 (by decide) 0 (by decide), Rg_addZ]; simp [R]
  have v01 : memo'.data 0 1 = -1 := by
    rw [hval 0 (by decide) 1 (by decide), Rg_addZ]; simp [R]
  have v10 : memo'.data 1 0 = -1 := by
    rw [hval 1 (by decide) 0 (by decide), Rg_addZ]; simp [R]
  have v11 : memo'.data 1 1 = -2 := by
    rw [hval 1 (by decide) 1 (by decide), Rg_addZ]; simp [R]
  have t1 : addZ (memo'.data 0 1) (-1) = memo'.data 1 1 := by rw [v01, v11]; rfl
  have t2 : addZ (memo'.data 1 0) (-1) = memo'.data 1 1 := by rw [v10, v11]; rfl
  have t3 : addZ (memo'.data 0 0) (-2) = memo'.data 1 1 := by rw [v00, v11]; rfl
  refine ⟨v, memo', h, t1, t2, t3, ?_, ?_⟩
  · exact (hstep 1 1 " A".toList " B".toList (by decide) (by decide) (by decide) (by decide)
      (by decide)).1 ⟨by decide, t1⟩
  · have hno : ¬(0 < 0 ∧ addZ (memo'.data (0 - 1) 1) (-1) = memo'.data 0 1) := fun h =>
      absurd h.1 (by decide)
    have hl : 0 < 1 ∧ addZ (memo'.data 0 (1 - 1)) (-1) = memo'.data 0 1 := by
      refine ⟨by decide, ?_⟩
      show addZ (memo'.data 0 0) (-1) = memo'.data 0 1
      rw [v00, v01]; rfl
    exact (hstep 0 1 " A".toList " B_".toList (by decide) (by decide) (by decide) (by decide)
      (by decide)).2.1 hno hl

/-- Claim C17: on the table completed by `opt` for the same sequences and
gap penalty (whatever the machine addition), the loop of `traceback` never
fails and every state it reaches lies in `[0,n] x [0,m]`, inside the table;
whenever an iteration takes the third (`else`) branch at a cell `(i, j)`, the
diagonal case holds: `i > 0`, `j > 0` and
`table(i, j) = table(i-1, j-1) + (match if s[i] = t[j] else mismatch)`, and the
iteration moves to `(i-1, j-1)` without insertion, so no index is decremented
below 0; and the loop stops at `(0, 0)` after at most `n + m` iterations, with
the pair that `traceback` prints. -/
theorem traceback_diag_safe (add : Int → Int → Int) (ord : ArgOrder) (a b : List Char)
    (match_ mismatch gap : Int) (memo : Matrix) (hfresh : memo.Unset)
    (hr : a.length < memo.rows) (hc : b.length < memo.cols) :
    ∃ v memo',
      optWith add ord (pad a) a.length (pad b) b.length memo match_ mismatch gap
        = some (v, memo') ∧
      (∀ k, ∃ sf tf i j,
        tracebackIter add memo' gap k (pad a, pad b, a.length, b.length)
          = some (sf, tf, i, j) ∧
        i ≤ a.length ∧ j ≤ b.length ∧ i < memo'.rows ∧ j < memo'.cols ∧
        ((i = 0 ∧ j = 0) ∨ i + j + k ≤ a.length + b.length)) ∧
      (∀ (k : Nat) (sf tf : List Char) (i j : Nat) (sf' tf' : List Char) (i' j' : Nat),
        tracebackIter add memo' gap k (pad a, pad b, a.length, b.length)
          = some (sf, tf, i, j) →
        ¬(i = 0 ∧ j = 0) →
        tracebackStep add memo' gap sf tf i j = some (Branch.diag, sf', tf', i', j') →
        0 < i ∧ 0 < j ∧
        memo'.data i j = add (memo'.data (i - 1) (j - 1))
          (if (pad a)[i]? = (pad b)[j]? then match_ else mismatch) ∧
        i' = i - 1 ∧ j' = j - 1 ∧ sf' = sf ∧ tf' = tf) ∧
      (∃ k sf tf, k ≤ a.length + b.length ∧
        tracebackIter add memo' gap k (pad a, pad b, a.length, b.length)
          = some (sf, tf, 0, 0) ∧
        tracebackWith add memo' (pad a) (pad b) gap = some (sf, tf)) := by
  obtain ⟨memo', h, hp⟩ := opt_spec add ord ' ' ' ' a b match_ mismatch gap a.length b.length
    memo le_rfl le_rfl hr hc (closed_of_unset _ hfresh)
  have hr' : a.length < memo'.rows := hp.1.1 ▸ hr
  have hc' : b.length < memo'.cols := hp.1.2.1 ▸ hc
  have inv := fun k => tracebackIter_completed add a b match_ mismatch gap memo' hp.2 hr' hc'
    k (pad a) (pad b) a.length b.length le_rfl le_rfl (by simp [pad]) (by simp [pad])
  refine ⟨_, memo', h, fun k => ?_, ?_, ?_⟩
  · obtain ⟨sf, tf, i, j, e, h1, h2, _, _, h5⟩ := inv k
    exact ⟨sf, tf, i, j, e, h1, h2, by omega, by omega, h5⟩
  · intro k sf tf i j sf' tf' i' j' hiter h00 hstep
    obtain ⟨sf0, tf0, i0, j0, e, h1, h2, h3, h4, _⟩ := inv k
    rw [hiter] at e
    obtain ⟨rfl, rfl, rfl, rfl⟩ : sf = sf0 ∧ tf = tf0 ∧ i = i0 ∧ j = j0 := by
      simpa using e
    rw [tracebackStep_eq add memo' gap sf tf i j (by omega) (by omega) h3 h4] at hstep
    by_cases hup : i ≠ 0 ∧ add (memo'.data (i - 1) j) gap = memo'.data i j
    · rw [if_pos hup] at hstep
      simp at hstep
    · rw [if_neg hup] at hstep
      by_cases hleft : j ≠ 0 ∧ add (memo'.data i (j - 1)) gap = memo'.data i j
      · rw [if_pos hleft] at hstep
        simp at hstep
      · rw [if_neg hleft] at hstep
        have hup' : ¬(i ≠ 0 ∧ add (Rg add a b match_ mismatch gap (i - 1) j) gap =
            Rg add a b match_ mismatch gap i j) := by
          rw [← hp.2 (i - 1) (by omega) j h2, ← hp.2 i h1 j h2]
          exact hup
        have hleft' : ¬(j ≠ 0 ∧ add (Rg add a b match_ mismatch gap i (j - 1)) gap =
            Rg add a b match_ mismatch gap i j) := by
          rw [← hp.2 i h1 (j - 1) (by omega), ← hp.2 i h1 j h2]
          exact hleft
        obtain ⟨hi0, hj0, hd⟩ :=
          Rg_diag_of_not_up_left add ' ' ' ' a b match_ mismatch gap i j h00 hup' hleft'
        have e1 : sizeDec i = i - 1 := by simp [sizeDec, Nat.pos_iff_ne_zero.mp hi0]
        have e2 : sizeDec j = j - 1 := by simp [sizeDec, Nat.pos_iff_ne_zero.mp hj0]
        rw [e1, e2] at hstep
        simp only [Option.some.injEq, Prod.mk.injEq, true_and] at hstep
        obtain ⟨rfl, rfl, rfl, rfl⟩ := hstep
        refine ⟨hi0, hj0, ?_, rfl, rfl, rfl, rfl⟩
        rw [hp.2 _ h1 _ h2, hp.2 (i - 1) (by omega) (j - 1) (by omega)]
        exact hd
  · obtain ⟨sf, tf, i, j, e, _, _, _, _, h5⟩ := inv (a.length + b.length)
    obtain ⟨rfl, rfl⟩ : i = 0 ∧ j = 0 := by
      rcases h5 with h5 | h5
      · exact h5
      · omega
    refine ⟨a.length + b.length, sf, tf, le_rfl, e, ?_⟩
    have e2 := tracebackIter_stable add gap memo' _ _ sf tf
      (tracebackIter_stable add gap memo' _ _ sf tf e)
    have hdec : sizeDec (pad a).length = a.length ∧ sizeDec (pad b).length = b.length := by
      simp [sizeDec, pad]
    have hfuel : (pad a).length + (pad b).length = a.length + b.length + 1 + 1 := by
      simp only [pad, List.length_cons]; omega
    rw [tracebackWith, hdec.1, hdec.2, tracebackLoop_eq_iter, hfuel, e2]
    simp

/-- Witness of C17 on `"GA"` against `"A"`: after `2 + 1` iterations at the
latest the loop is at the origin. -/
theorem traceback_diag_safe_witness :
    ∃ v memo',
      optWith addZ .o321 (pad "GA".toList) 2 (pad "A".toList) 1 (Matrix.fill 4 3 INF)
        1 (-1) (-2) = some (v, memo') ∧
      ∃ k sf tf, k ≤ 2 + 1 ∧
        tracebackIter addZ memo' (-2) k (pad "GA".toList, pad "A".toList, 2, 1)
          = some (sf, tf, 0, 0) ∧
        tracebackWith addZ memo' (pad "GA".toList) (pad "A".toList) (-2) = some (sf, tf) := by
  obtain ⟨v, memo', h, _, _, h3⟩ := traceback_diag_safe addZ .o321 "GA".toList "A".toList
    1 (-1) (-2) (Matrix.fill 4 3 INF) (fun _ _ _ _ => rfl) (by decide) (by decide)
  exact ⟨v, memo', h, h3⟩

end Align
